import Mathlib

/-!
Verification of the lawsuit-document pipeline in `app.py` (Law-qiSuZhuang).

The development shallowly embeds the core of `app.py`:
  * the Python string operations used by the code (`in`, `str.replace`,
    `str.strip`, `str.lower`, `str.endswith`), modelled over `List Char`
    with Python semantics;
  * the pydantic data model (`PartyInfo`, `Lawsuit`);
  * the python-docx document structure as far as the code observes it
    (body-level paragraphs and tables, rows, cells, cell paragraphs,
    nested tables inside cells, formatting runs carrying text);
  * `extract_lawsuit_data` (app.py lines 37-90): the .docx gate, the
    paragraph/table text linearization and the guarded LLM call;
  * `generate_docx` (app.py lines 94-160): the 18-entry replacement map
    and the per-run placeholder substitution over paragraphs and
    table-cell paragraphs.

Theorems about the claims follow the definitions.
-/

/-- Python strings, as lists of characters. -/
abbrev Str := List Char

/-- Conversion from Lean string literals. -/
def str (s : String) : Str := s.data

/-- The left-brace character (written by code point to keep braces out of literals). -/
def lb : Char := Char.ofNat 123

/-- The right-brace character. -/
def rb : Char := Char.ofNat 125

/-- The newline character. -/
def nl : Char := Char.ofNat 10

/-- Boolean test that `pat` is a leading part of `s` (Python `s.startswith(pat)`). -/
def startsWithStr : Str → Str → Bool
  | [], _ => true
  | _ :: _, [] => false
  | a :: p, b :: s => a == b && startsWithStr p s

/-- Python's substring test `pat in s`. -/
def containsStr (pat : Str) : Str → Bool
  | [] => startsWithStr pat []
  | c :: t => startsWithStr pat (c :: t) || containsStr pat (c :: t).tail

/-- Fuel-driven core of Python `s.replace(pat, val)` for a non-empty pattern:
left-to-right, non-overlapping, the inserted value is not rescanned. -/
def replaceAux (pat val : Str) : Nat → Str → Str
  | _, [] => []
  | 0, s => s
  | n + 1, c :: t =>
    if (!pat.isEmpty) && startsWithStr pat (c :: t) then
      val ++ replaceAux pat val n ((c :: t).drop pat.length)
    else
      c :: replaceAux pat val n t

/-- Python `s.replace(pat, val)`; an empty pattern inserts `val` at every position. -/
def pyReplace (pat val s : Str) : Str :=
  if pat.isEmpty then val ++ s.foldr (fun c acc => c :: (val ++ acc)) []
  else replaceAux pat val s.length s

/-- Concatenation of a list of strings (`"".join`). -/
def cat (l : List Str) : Str := l.foldr (fun a b => a ++ b) []

/-- Python `"\n".join(l)`. -/
def joinNL : List Str → Str
  | [] => []
  | [x] => x
  | x :: y :: t => x ++ nl :: joinNL (y :: t)

/-- Python `s.strip()`: drop whitespace from both ends. -/
def pyStrip (s : Str) : Str :=
  ((s.dropWhile Char.isWhitespace).reverse.dropWhile Char.isWhitespace).reverse

/-- Python `s.lower()`, as far as the `.docx` check needs it. -/
def lowerStr (s : Str) : Str := s.map Char.toLower

/-- Python `s.endswith(suffix)`. -/
def endsWithStr (sfx s : Str) : Bool := startsWithStr sfx.reverse s.reverse

/-- Boolean test for two adjacent characters `a`, `b` somewhere in a string. -/
def hasPair (a b : Char) : Str → Bool
  | x :: y :: t => (x == a && y == b) || hasPair a b (y :: t)
  | _ => false

/-- A string with no brace characters. -/
def braceFreeB (s : Str) : Bool := s.all (fun c => !(c == lb) && !(c == rb))

/-- Sanity anchor: the substring test behaves like Python `in`. -/
theorem sanityContains : containsStr (str "ab") (str "xaby") = true ∧
    containsStr (str "ab") (str "xayb") = false := by decide

/-- Sanity anchor: replace is left-to-right and non-overlapping like Python. -/
theorem sanityReplace : pyReplace (str "ab") (str "Z") (str "cababd") = str "cZZd" ∧
    pyReplace (str "aa") (str "b") (str "aaa") = str "ba" := by decide

/-- Sanity anchor: strip, lower/endswith and the newline join. -/
theorem sanityStripJoin : pyStrip (str "  a b\t ") = str "a b" ∧
    endsWithStr (str ".docx") (lowerStr (str "A.DocX")) = true ∧
    joinNL [str "a", str "b"] = str "a\nb" := by decide

/-!
Data model: the pydantic classes of app.py lines 14-31. Absence (`None`)
is distinct from the empty string.
-/

/-- PartyInfo (app.py 14-22): one litigant, all fields optional free text. -/
structure PartyInfo where
  name : Option Str
  gender : Option Str
  ethnicity : Option Str
  dob : Option Str
  address : Option Str
  id_card : Option Str
  contact : Option Str

/-- Lawsuit (app.py 24-31): the complete extracted record. -/
structure Lawsuit where
  plaintiff : PartyInfo
  defendant : PartyInfo
  claims : Str
  facts_and_reasons : Str
  court_name : Option Str
  date : Option Str

/-- Python `x or ""` applied to an optional string. -/
def orEmpty : Option Str → Str
  | none => []
  | some s => s

/-!
Document model: the parts of a python-docx `Document` that app.py reads.
A paragraph is its list of formatting runs, each run carrying its text;
the paragraph's visible text is the concatenation of its runs' texts.
A cell holds its direct paragraphs and any tables nested inside it;
`Document.paragraphs` / `Document.tables` list only body-level items, and
`cell.paragraphs` / `cell.text` cover only the cell's direct paragraphs,
exactly as python-docx exposes them to app.py.
-/

/-- A paragraph, as its list of run texts. -/
abbrev Paragraph := List Str

mutual

/-- A table cell: its direct paragraphs and the tables nested inside it. -/
inductive Cell where
  | mk : List Paragraph → List Table → Cell

/-- A table: a list of rows, each a list of cells. -/
inductive Table where
  | mk : List (List Cell) → Table

end

/-- Direct paragraphs of a cell (python-docx `cell.paragraphs`). -/
def Cell.paragraphs : Cell → List Paragraph
  | .mk ps _ => ps

/-- Tables nested inside a cell (python-docx `cell.tables`; app.py never reads them). -/
def Cell.tables : Cell → List Table
  | .mk _ ts => ts

/-- Rows of a table (python-docx `table.rows`, each row its `row.cells`). -/
def Table.rows : Table → List (List Cell)
  | .mk r => r

/-- One body-level item of a document: a paragraph or a table, in document order. -/
inductive Block where
  | para : Paragraph → Block
  | table : Table → Block

/-- A parsed .docx document: its body as the ordered sequence of blocks. -/
structure Document where
  body : List Block

/-- Visible text of a paragraph: the concatenation of its runs' texts. -/
def paraText (p : Paragraph) : Str := cat p

/-- python-docx `document.paragraphs`: body-level paragraphs in document order. -/
def docParagraphs (d : Document) : List Paragraph :=
  d.body.filterMap (fun b => match b with | .para p => some p | .table _ => none)

/-- python-docx `document.tables`: body-level tables in document order. -/
def docTables (d : Document) : List Table :=
  d.body.filterMap (fun b => match b with | .para _ => none | .table t => some t)

/-- python-docx `cell.text`: the cell's direct paragraph texts joined by newline. -/
def cellText (c : Cell) : Str := joinNL (c.paragraphs.map paraText)

/-!
Text extraction, app.py lines 48-60: trimmed non-empty body paragraph texts
in order, then trimmed non-empty cell texts in table/row/cell order, joined
by newline.
-/

/-- The `parts` list built by app.py lines 49-59. -/
def extractParts (d : Document) : List Str :=
  ((docParagraphs d).map (fun p => pyStrip (paraText p))).filter (fun t => !t.isEmpty) ++
  (((docTables d).flatMap (fun t => t.rows.flatMap (fun row => row.map cellText))).map
      pyStrip).filter (fun t => !t.isEmpty)

/-- `content = "\n".join(parts)`, app.py line 60. -/
def extractContent (d : Document) : Str := joinNL (extractParts d)


/-!
The placeholder map and the fill algorithm, app.py lines 94-160.
-/

/-- A placeholder token: two left braces, the token name, two right braces. -/
def keyOf (mid : Str) : Str := lb :: lb :: (mid ++ [rb, rb])

/-- The replacement map of app.py lines 106-125, in source order. -/
def replacements (data : Lawsuit) : List (Str × Str) :=
  [ (keyOf (str "plaintiff_name"), orEmpty data.plaintiff.name),
    (keyOf (str "plaintiff_gender"), orEmpty data.plaintiff.gender),
    (keyOf (str "plaintiff_ethnicity"), orEmpty data.plaintiff.ethnicity),
    (keyOf (str "plaintiff_dob"), orEmpty data.plaintiff.dob),
    (keyOf (str "plaintiff_address"), orEmpty data.plaintiff.address),
    (keyOf (str "plaintiff_id_card"), orEmpty data.plaintiff.id_card),
    (keyOf (str "plaintiff_contact"), orEmpty data.plaintiff.contact),
    (keyOf (str "defendant_name"), orEmpty data.defendant.name),
    (keyOf (str "defendant_gender"), orEmpty data.defendant.gender),
    (keyOf (str "defendant_ethnicity"), orEmpty data.defendant.ethnicity),
    (keyOf (str "defendant_dob"), orEmpty data.defendant.dob),
    (keyOf (str "defendant_address"), orEmpty data.defendant.address),
    (keyOf (str "defendant_id_card"), orEmpty data.defendant.id_card),
    (keyOf (str "defendant_contact"), orEmpty data.defendant.contact),
    (keyOf (str "claims"), data.claims),
    (keyOf (str "facts_and_reasons"), data.facts_and_reasons),
    (keyOf (str "court_name"), orEmpty data.court_name),
    (keyOf (str "date"), orEmpty data.date) ]

/-- Token name of the `k`-th replacement entry. -/
def midOf : Nat → Str
  | 0 => str "plaintiff_name"
  | 1 => str "plaintiff_gender"
  | 2 => str "plaintiff_ethnicity"
  | 3 => str "plaintiff_dob"
  | 4 => str "plaintiff_address"
  | 5 => str "plaintiff_id_card"
  | 6 => str "plaintiff_contact"
  | 7 => str "defendant_name"
  | 8 => str "defendant_gender"
  | 9 => str "defendant_ethnicity"
  | 10 => str "defendant_dob"
  | 11 => str "defendant_address"
  | 12 => str "defendant_id_card"
  | 13 => str "defendant_contact"
  | 14 => str "claims"
  | 15 => str "facts_and_reasons"
  | 16 => str "court_name"
  | 17 => str "date"
  | _ + 18 => []

/-- The `k`-th placeholder token. -/
def keys (k : Nat) : Str := keyOf (midOf k)

/-- Value of the `k`-th replacement entry for a given record. -/
def vals (data : Lawsuit) : Nat → Str
  | 0 => orEmpty data.plaintiff.name
  | 1 => orEmpty data.plaintiff.gender
  | 2 => orEmpty data.plaintiff.ethnicity
  | 3 => orEmpty data.plaintiff.dob
  | 4 => orEmpty data.plaintiff.address
  | 5 => orEmpty data.plaintiff.id_card
  | 6 => orEmpty data.plaintiff.contact
  | 7 => orEmpty data.defendant.name
  | 8 => orEmpty data.defendant.gender
  | 9 => orEmpty data.defendant.ethnicity
  | 10 => orEmpty data.defendant.dob
  | 11 => orEmpty data.defendant.address
  | 12 => orEmpty data.defendant.id_card
  | 13 => orEmpty data.defendant.contact
  | 14 => data.claims
  | 15 => data.facts_and_reasons
  | 16 => orEmpty data.court_name
  | 17 => orEmpty data.date
  | _ + 18 => []

/-- The replacement map is the 18 token/value pairs in index order. -/
theorem replacements_eq_range (data : Lawsuit) :
    replacements data = (List.range 18).map (fun k => (keys k, vals data k)) := rfl

/-- The inner run loop for one key (app.py 133-137 and 146-150): each run whose
own text contains the key has the key replaced inside that run's text. -/
def fillRuns (key value : Str) (runs : Paragraph) : Paragraph :=
  runs.map (fun r => if containsStr key r = true then pyReplace key value r else r)

/-- One step of the replacement loop on one paragraph (app.py 129-137): the run
loop fires only when the key occurs in the paragraph's visible text. -/
def fillParaStep (runs : Paragraph) (kv : Str × Str) : Paragraph :=
  if containsStr kv.1 (paraText runs) = true then fillRuns kv.1 kv.2 runs else runs

/-- Substitution over one paragraph: all replacement entries in map order. -/
def fillParagraph (reps : List (Str × Str)) (runs : Paragraph) : Paragraph :=
  reps.foldl fillParaStep runs

/-- Substitution inside one cell (app.py 143-150): only its direct paragraphs
are rewritten; tables nested inside the cell are not visited. -/
def fillCell (reps : List (Str × Str)) : Cell → Cell
  | .mk ps ts => .mk (ps.map (fillParagraph reps)) ts

/-- Substitution over one body-level table (app.py 140-150). -/
def fillTable (reps : List (Str × Str)) : Table → Table
  | .mk rows => .mk (rows.map (fun row => row.map (fillCell reps)))

/-- Substitution over one body block. -/
def fillBlock (reps : List (Str × Str)) : Block → Block
  | .para p => .para (fillParagraph reps p)
  | .table t => .table (fillTable reps t)

/-- The whole in-memory substitution performed by generate_docx (app.py 128-150)
on a parsed template document. -/
def fillDocument (data : Lawsuit) (d : Document) : Document :=
  ⟨d.body.map (fillBlock (replacements data))⟩

/-!
The two top-level operations with their try/except behaviour. Failures of the
external pieces (docx parsing, the LLM call and the pydantic output parser)
are modelled as `Except` inputs; any raised error is caught and surfaced as a
`st.error` message plus a `None` result (app.py 88-90, 158-160).
-/

/-- Outcome of a top-level operation: the returned value and the error message
shown via `st.error`, if any. -/
structure Outcome (α : Type) where
  result : Option α
  errorMsg : Option Str

/-- Message of the ValueError raised for non-.docx uploads (app.py 47). -/
def docxOnlyMsg : Str := str "仅支持 .docx 文件，请将 .doc 文件另存为 .docx 后再上传。"

/-- extract_lawsuit_data, app.py 37-90. `parseDoc` stands for `docx.Document`
on the file's bytes; `llm` stands for the prompt/model/parser chain, taking
the linearized document text to a validated record or a raised error. -/
def extract_lawsuit_data (filePath : Str) (parseDoc : Except Str Document)
    (llm : Str → Except Str Lawsuit) : Outcome Lawsuit :=
  if endsWithStr (str ".docx") (lowerStr filePath) = true then
    match parseDoc with
    | .error e => ⟨none, some (str "信息提取失败: " ++ e)⟩
    | .ok d =>
      match llm (extractContent d) with
      | .error e => ⟨none, some (str "信息提取失败: " ++ e)⟩
      | .ok law => ⟨some law, none⟩
  else ⟨none, some (str "信息提取失败: " ++ docxOnlyMsg)⟩

/-- generate_docx, app.py 94-160: parse the template, substitute, serialize.
The serialized byte buffer is identified with the filled document. -/
def generate_docx (data : Lawsuit) (parseTemplate : Except Str Document) :
    Outcome Document :=
  match parseTemplate with
  | .error e => ⟨none, some (str "文档生成失败: " ++ e)⟩
  | .ok d => ⟨some (fillDocument data d), none⟩


/-!
Basic facts about the Python string operations.
-/

/-- Characterization of the leading-part test. -/
theorem swsIff (p : Str) : ∀ s, startsWithStr p s = true ↔ ∃ r, s = p ++ r := by
  induction p with
  | nil => intro s; simp [startsWithStr]
  | cons a p ih =>
    intro s
    cases s with
    | nil => simp [startsWithStr]
    | cons b t =>
      simp only [startsWithStr, Bool.and_eq_true, beq_iff_eq, ih]
      constructor
      · rintro ⟨rfl, r, rfl⟩; exact ⟨r, rfl⟩
      · rintro ⟨r, h⟩
        cases h
        exact ⟨rfl, r, rfl⟩

/-- A string is a leading part of itself followed by anything. -/
theorem swsRefl (p r : Str) : startsWithStr p (p ++ r) = true :=
  (swsIff p (p ++ r)).2 ⟨r, rfl⟩

/-- Unfolding of the substring test on a cons cell. -/
theorem containsCons (pat : Str) (c : Char) (t : Str) :
    containsStr pat (c :: t) = (startsWithStr pat (c :: t) || containsStr pat t) := by
  simp [containsStr]

/-- Characterization of the Python `in` test as a three-way split. -/
theorem containsIff (pat : Str) : ∀ s, containsStr pat s = true ↔ ∃ a b, s = a ++ pat ++ b := by
  intro s
  induction s with
  | nil =>
    simp only [containsStr, swsIff]
    constructor
    · rintro ⟨r, h⟩; exact ⟨[], r, by simpa using h⟩
    · rintro ⟨a, b, h⟩
      rw [List.append_assoc] at h
      cases List.append_eq_nil.1 h.symm with
      | intro h1 h2 => exact ⟨b, by simp [h1, h2]⟩
  | cons c t ih =>
    rw [containsCons, Bool.or_eq_true, ih, swsIff]
    constructor
    · rintro (⟨r, h⟩ | ⟨a, b, h⟩)
      · exact ⟨[], r, by simpa using h⟩
      · exact ⟨c :: a, b, by simp [h]⟩
    · rintro ⟨a, b, h⟩
      cases a with
      | nil => exact Or.inl ⟨b, by simpa using h⟩
      | cons x a' =>
        simp only [List.cons_append] at h
        cases h
        exact Or.inr ⟨a', b, by simp⟩

/-- The pattern occurs in any string it is spliced into. -/
theorem containsOfSplit (pat a b : Str) : containsStr pat (a ++ pat ++ b) = true :=
  (containsIff pat _).2 ⟨a, b, rfl⟩

/-- Occurrence survives prepending. -/
theorem containsAppL (pat x s : Str) (h : containsStr pat s = true) :
    containsStr pat (x ++ s) = true := by
  rcases (containsIff pat s).1 h with ⟨a, b, rfl⟩
  exact (containsIff pat _).2 ⟨x ++ a, b, by simp⟩

/-- Occurrence survives appending. -/
theorem containsAppR (pat s x : Str) (h : containsStr pat s = true) :
    containsStr pat (s ++ x) = true := by
  rcases (containsIff pat s).1 h with ⟨a, b, rfl⟩
  exact (containsIff pat _).2 ⟨a, b ++ x, by simp⟩

/-- A string containing a pattern contains the pattern's first character. -/
theorem containsHeadMem (pat s : Str) (c : Char) (hc : pat.head? = some c)
    (h : containsStr pat s = true) : c ∈ s := by
  rcases (containsIff pat s).1 h with ⟨a, b, rfl⟩
  cases pat with
  | nil => simp at hc
  | cons x p => cases hc; simp

/-- Fuel does not matter once it covers the string's length. -/
theorem replaceAuxFuel (pat val : Str) :
    ∀ (k : Nat) (s : Str), s.length ≤ k → ∀ (n m : Nat), s.length ≤ n → s.length ≤ m →
      replaceAux pat val n s = replaceAux pat val m s := by
  intro k
  induction k with
  | zero =>
    intro s hs n m _ _
    have : s = [] := List.eq_nil_of_length_eq_zero (Nat.le_zero.1 hs)
    subst this
    cases n <;> cases m <;> rfl
  | succ k ih =>
    intro s hs n m hn hm
    cases s with
    | nil => cases n <;> cases m <;> rfl
    | cons c t =>
      cases n with
      | zero => exact absurd hn (by simp)
      | succ n =>
        cases m with
        | zero => exact absurd hm (by simp)
        | succ m =>
          simp only [replaceAux]
          by_cases hcond : ((!pat.isEmpty) && startsWithStr pat (c :: t)) = true
          · rw [if_pos hcond, if_pos hcond]
            rw [Bool.and_eq_true] at hcond
            have hpat : 1 ≤ pat.length := by
              cases pat with
              | nil => simp at hcond
              | cons _ _ => simp
            rw [← Bool.and_eq_true] at hcond
            have hlen : ((c :: t).drop pat.length).length ≤ k := by
              simp only [List.length_drop, List.length_cons]
              simp only [List.length_cons] at hs
              omega
            have hln : ((c :: t).drop pat.length).length ≤ n := by
              simp only [List.length_drop, List.length_cons]
              simp only [List.length_cons] at hn
              omega
            have hlm : ((c :: t).drop pat.length).length ≤ m := by
              simp only [List.length_drop, List.length_cons]
              simp only [List.length_cons] at hm
              omega
            rw [ih _ hlen _ _ hln hlm]
          · rw [if_neg hcond, if_neg hcond]
            have hlen : t.length ≤ k := by simp only [List.length_cons] at hs; omega
            have hln : t.length ≤ n := by simp only [List.length_cons] at hn; omega
            have hlm : t.length ≤ m := by simp only [List.length_cons] at hm; omega
            rw [ih _ hlen _ _ hln hlm]

/-- Replacement in the empty string (non-empty pattern). -/
theorem pyReplaceNil (pat val : Str) (h : pat ≠ []) : pyReplace pat val [] = [] := by
  have : pat.isEmpty = false := by cases pat with | nil => exact absurd rfl h | cons _ _ => rfl
  simp [pyReplace, this, replaceAux]

/-- Replacement where the pattern matches at the front: emit the value and
continue after the matched characters. -/
theorem pyReplaceMatch (pat val s : Str) (h : pat ≠ [])
    (hs : startsWithStr pat s = true) :
    pyReplace pat val s = val ++ pyReplace pat val (s.drop pat.length) := by
  have hpe : pat.isEmpty = false := by
    cases pat with | nil => exact absurd rfl h | cons _ _ => rfl
  cases s with
  | nil =>
    rcases (swsIff pat []).1 hs with ⟨r, hr⟩
    exact absurd (List.append_eq_nil.1 hr.symm).1 h
  | cons c t =>
    have hpat : 1 ≤ pat.length := by
      cases pat with | nil => exact absurd rfl h | cons _ _ => simp
    simp only [pyReplace, hpe, Bool.false_eq_true, if_false, List.length_cons]
    have hstep : replaceAux pat val (t.length + 1) (c :: t) =
        val ++ replaceAux pat val t.length ((c :: t).drop pat.length) := by
      simp [replaceAux, hpe, hs]
    rw [hstep]
    congr 1
    exact replaceAuxFuel pat val t.length _ (by simp only [List.length_drop, List.length_cons]; omega)
      _ _ (by simp only [List.length_drop, List.length_cons]; omega) (by simp)

/-- Replacement where the pattern does not match at the front: keep the first
character and continue. -/
theorem pyReplaceSkip (pat val : Str) (c : Char) (t : Str) (h : pat ≠ [])
    (hs : startsWithStr pat (c :: t) = false) :
    pyReplace pat val (c :: t) = c :: pyReplace pat val t := by
  have hpe : pat.isEmpty = false := by
    cases pat with | nil => exact absurd rfl h | cons _ _ => rfl
  simp [pyReplace, hpe, replaceAux, hs]


/-!
Adjacent-pair machinery: where a pattern shaped like a placeholder token can
and cannot match inside a string.
-/

/-- A pair found in the tail is found in the whole. -/
theorem hasPairCons (a b c : Char) (t : Str) (h : hasPair a b t = true) :
    hasPair a b (c :: t) = true := by
  cases t with
  | nil => simp [hasPair] at h
  | cons x t' => simp only [hasPair, Bool.or_eq_true]; exact Or.inr h

/-- A pair survives prepending. -/
theorem hasPairAppL (a b : Char) (x s : Str) (h : hasPair a b s = true) :
    hasPair a b (x ++ s) = true := by
  induction x with
  | nil => simpa using h
  | cons c x ih => exact hasPairCons a b c _ ih

/-- A pair survives appending. -/
theorem hasPairAppR (a b : Char) (s x : Str) (h : hasPair a b s = true) :
    hasPair a b (s ++ x) = true := by
  induction s with
  | nil => simp [hasPair] at h
  | cons c s ih =>
    cases s with
    | nil => simp [hasPair] at h
    | cons d s' =>
      simp only [hasPair, Bool.or_eq_true] at h
      rcases h with h | h
      · simp only [List.cons_append, hasPair, Bool.or_eq_true]
        exact Or.inl h
      · have := ih h
        simp only [List.cons_append] at this ⊢
        exact hasPairCons a b c _ this

/-- The explicit adjacent pair in a spliced string. -/
theorem hasPairSplit (a b : Char) (x y : Str) : hasPair a b (x ++ a :: b :: y) = true := by
  induction x with
  | nil => simp [hasPair]
  | cons c x ih => exact hasPairCons a b c _ ih

/-- A pattern ending in an adjacent pair only matches where that pair occurs. -/
theorem swsHasPair (a b : Char) : ∀ (B s : Str),
    startsWithStr (B ++ [a, b]) s = true → hasPair a b s = true := by
  intro B
  induction B with
  | nil =>
    intro s h
    rcases (swsIff _ s).1 h with ⟨r, rfl⟩
    simpa using hasPairSplit a b [] r
  | cons c B ih =>
    intro s h
    cases s with
    | nil => simp [startsWithStr] at h
    | cons d t =>
      simp only [List.cons_append, startsWithStr, Bool.and_eq_true, beq_iff_eq] at h
      exact hasPairCons a b d t (ih t h.2)

/-- A string without the pattern's closing pair is left unchanged by replace. -/
theorem replaceNoPair (a b : Char) (B val : Str) :
    ∀ (s : Str), hasPair a b s = false → pyReplace (B ++ [a, b]) val s = s := by
  intro s
  induction s with
  | nil => intro _; exact pyReplaceNil _ val (by simp)
  | cons c t ih =>
    intro h
    have hns : startsWithStr (B ++ [a, b]) (c :: t) = false := by
      by_contra hcon
      rw [Bool.not_eq_false] at hcon
      rw [swsHasPair a b B _ hcon] at h
      cases h
    rw [pyReplaceSkip _ val c t (by simp) hns]
    have ht : hasPair a b t = false := by
      by_contra hcon
      rw [Bool.not_eq_false] at hcon
      rw [hasPairCons a b c t hcon] at h
      cases h
    rw [ih ht]

/-- Replacement walks over any segment free of the pattern's first character. -/
theorem replaceSkipNoHead (h0 : Char) (p val : Str) :
    ∀ (s r : Str), (∀ c ∈ s, c ≠ h0) →
      pyReplace (h0 :: p) val (s ++ r) = s ++ pyReplace (h0 :: p) val r := by
  intro s
  induction s with
  | nil => intro r _; simp
  | cons c t ih =>
    intro r hmem
    have hns : startsWithStr (h0 :: p) (c :: (t ++ r)) = false := by
      simp only [startsWithStr, Bool.and_eq_false_iff]
      left
      simp only [beq_eq_false_iff_ne, ne_eq]
      exact fun he => hmem c (by simp) he.symm
    simp only [List.cons_append]
    rw [pyReplaceSkip _ val c _ (by simp) hns]
    rw [ih r (fun x hx => hmem x (by simp [hx]))]

/-- Replacement walks over a segment that has no adjacent pair of the
pattern's first character and does not end in that character. -/
theorem replaceSkipSeg (a : Char) (p val : Str) :
    ∀ (G q : Str), hasPair a a G = false → G.getLast? ≠ some a →
      pyReplace (a :: a :: p) val (G ++ q) = G ++ pyReplace (a :: a :: p) val q := by
  intro G
  induction G with
  | nil => intro q _ _; simp
  | cons c t ih =>
    intro q hpair hlast
    cases t with
    | nil =>
      have hca : c ≠ a := by
        intro h
        exact hlast (by simp [h])
      have hns : startsWithStr (a :: a :: p) (c :: q) = false := by
        simp only [startsWithStr, Bool.and_eq_false_iff]
        left
        simp only [beq_eq_false_iff_ne, ne_eq]
        exact fun he => hca he.symm
      simp only [List.cons_append, List.nil_append]
      rw [pyReplaceSkip _ val c _ (by simp) hns]
    | cons d t' =>
      have hns : startsWithStr (a :: a :: p) (c :: d :: (t' ++ q)) = false := by
        simp only [startsWithStr, Bool.and_eq_false_iff, beq_eq_false_iff_ne, ne_eq]
        by_cases hac : a = c
        · right
          left
          intro had
          subst hac
          subst had
          simp [hasPair] at hpair
        · left
          exact hac
      simp only [List.cons_append]
      rw [pyReplaceSkip _ val c _ (by simp) hns]
      have hpt : hasPair a a (d :: t') = false := by
        by_contra hcon
        rw [Bool.not_eq_false] at hcon
        rw [hasPairCons a a c _ hcon] at hpair
        cases hpair
      have hlt : (d :: t').getLast? ≠ some a := by
        rw [List.getLast?_cons_cons] at hlast
        exact hlast
      have := ih q hpt hlt
      simp only [List.cons_append] at this
      rw [this]


/-- Core of the split-token argument: a suffix with no adjacent closing pair
and not opening with the closing character survives replacement by a pattern
that ends in that adjacent pair. -/
theorem replaceKeepTailAux (a : Char) (B val F : Str)
    (hpair : hasPair a a F = false) (hhead : F.head? ≠ some a) :
    ∀ (N : Nat) (p : Str), p.length ≤ N →
      ∃ p', pyReplace (B ++ [a, a]) val (p ++ F) = p' ++ F := by
  intro N
  induction N with
  | zero =>
    intro p hp
    have : p = [] := List.eq_nil_of_length_eq_zero (Nat.le_zero.1 hp)
    subst this
    exact ⟨[], by simpa using replaceNoPair a a B val F hpair⟩
  | succ N ih =>
    intro p hp
    cases p with
    | nil => exact ⟨[], by simpa using replaceNoPair a a B val F hpair⟩
    | cons c t =>
      by_cases hstart : startsWithStr (B ++ [a, a]) (c :: t ++ F) = true
      · -- the match must lie entirely inside `c :: t`
        have hlen : (B ++ [a, a]).length ≤ (c :: t).length := by
          by_contra hgt
          push_neg at hgt
          rcases (swsIff _ _).1 hstart with ⟨R, hR⟩
          have hF : F = (B ++ ([a, a] ++ R)).drop (c :: t).length := by
            have : (c :: t ++ F).drop (c :: t).length = F := List.drop_left _ _
            rw [← this]
            rw [hR]
            simp [List.append_assoc]
          rw [List.drop_append_eq_append_drop] at hF
          simp only [List.length_append, List.length_cons, List.length_nil] at hgt
          by_cases hble : (c :: t).length ≤ B.length
          · -- the closing pair would sit inside F
            have hdrop : ([a, a] ++ R : Str).drop ((c :: t).length - B.length) = [a, a] ++ R := by
              rw [Nat.sub_eq_zero_of_le hble, List.drop_zero]
            rw [hdrop] at hF
            have : hasPair a a F = true := by
              rw [hF]
              exact hasPairSplit a a _ R
            rw [this] at hpair
            cases hpair
          · -- the closing pair would straddle the boundary: F opens with `a`
            push_neg at hble
            have hone : (c :: t).length - B.length = 1 := by
              have h1 : (c :: t).length = t.length + 1 := by simp
              have h2 : (B ++ [a, a]).length = B.length + 2 := by simp
              omega
            have hBdrop : B.drop (c :: t).length = [] :=
              List.drop_eq_nil_of_le (Nat.le_of_lt hble)
            rw [hBdrop, hone] at hF
            simp only [List.nil_append, List.drop_succ_cons, List.drop_zero] at hF
            rw [hF] at hhead
            simp at hhead
        -- rewrite and recurse on the shorter remainder
        rw [pyReplaceMatch _ val _ (by simp) hstart]
        have hdrop : ((c :: t) ++ F).drop (B ++ [a, a]).length =
            (c :: t).drop (B ++ [a, a]).length ++ F := by
          rw [List.drop_append_eq_append_drop, Nat.sub_eq_zero_of_le hlen, List.drop_zero]
        rw [hdrop]
        have hshorter : ((c :: t).drop (B ++ [a, a]).length).length ≤ N := by
          simp only [List.length_drop, List.length_cons]
          simp only [List.length_cons] at hp
          have : 1 ≤ (B ++ [a, a]).length := by simp
          omega
        rcases ih _ hshorter with ⟨p2, hp2⟩
        exact ⟨val ++ p2, by rw [hp2, List.append_assoc]⟩
      · rw [Bool.not_eq_true] at hstart
        have hstart' : startsWithStr (B ++ [a, a]) (c :: (t ++ F)) = false := hstart
        rw [List.cons_append, pyReplaceSkip _ val c (t ++ F) (by simp) hstart']
        have : t.length ≤ N := by simp only [List.length_cons] at hp; omega
        rcases ih t this with ⟨p', hp'⟩
        exact ⟨c :: p', by rw [hp', List.cons_append]⟩

/-- Suffix preservation, stated for all leading parts. -/
theorem replaceKeepTail (a : Char) (B val F p : Str)
    (hpair : hasPair a a F = false) (hhead : F.head? ≠ some a) :
    ∃ p', pyReplace (B ++ [a, a]) val (p ++ F) = p' ++ F :=
  replaceKeepTailAux a B val F hpair hhead p.length p le_rfl


/-!
Structural facts about the 18 placeholder tokens, settled by computation.
-/

/-- Any token opens with a left brace. -/
theorem keysHead (k : Nat) : (keys k).head? = some lb := rfl

/-- A token written as leading part plus closing pair. -/
theorem keysAsPair (k : Nat) : keys k = (lb :: lb :: midOf k) ++ [rb, rb] := by
  simp [keys, keyOf]

/-- Token names are free of braces. -/
theorem midBraceFree : ∀ k, k < 18 → braceFreeB (midOf k) = true := by decide

/-- Distinct indices carry distinct token names. -/
theorem midInj : ∀ k, k < 18 → ∀ j, j < 18 → k ≠ j → midOf k ≠ midOf j := by decide

/-- Every token is short. -/
theorem keysShort : ∀ k, k < 18 → (keys k).length ≤ 23 := by decide

/-- Tokens end with a right brace. -/
theorem keysLast : ∀ k, k < 18 → (keys k).getLast? = some rb := by decide

/-- Past its first character, a token has no adjacent left-brace pair. -/
theorem keysNoLLDrop : ∀ k, k < 18 → ∀ i, i < 24 → 1 ≤ i →
    hasPair lb lb ((keys k).drop i) = false := by decide

/-- Short of its last character, a token has no adjacent right-brace pair. -/
theorem keysNoRRTake : ∀ k, k < 18 → ∀ i, i < 24 → i + 1 ≤ (keys k).length →
    hasPair rb rb ((keys k).take i) = false := by decide

/-- A token is never the empty string. -/
theorem keysNe (k : Nat) : keys k ≠ [] := by simp [keys, keyOf]

/-- Membership form of brace-freeness. -/
theorem braceFreeMem (s : Str) (h : braceFreeB s = true) :
    ∀ c ∈ s, c ≠ lb ∧ c ≠ rb := by
  intro c hc
  rw [braceFreeB, List.all_eq_true] at h
  have := h c hc
  simp only [Bool.and_eq_true, Bool.not_eq_true', beq_eq_false_iff_ne, ne_eq] at this
  exact this

/-!
Well-formed template texts: every brace belongs to a whole literal token.
A run in such a template denotes a list of segments, each either a
brace-free literal or one whole token.
-/

/-- One segment of a template run. -/
inductive Seg where
  | lit : Str → Seg
  | tok : Nat → Seg
  deriving DecidableEq

/-- The text a segment denotes. -/
def Seg.renderOne : Seg → Str
  | .lit s => s
  | .tok k => keys k

/-- The text a segment list denotes. -/
def render (segs : List Seg) : Str := cat (segs.map Seg.renderOne)

/-- Well-formedness of one segment. -/
def wfSegB : Seg → Bool
  | .lit s => braceFreeB s
  | .tok k => decide (k < 18)

/-- Well-formedness of a run's segment list. -/
def wfSegsB (segs : List Seg) : Bool := segs.all wfSegB

/-- Well-formedness of a paragraph's runs, each given by segments. -/
def wfRunsB (segss : List (List Seg)) : Bool := segss.all wfSegsB

/-- Substituting one token by a value at the segment level. -/
def substSeg (k : Nat) (v : Str) : Seg → Seg
  | .lit s => .lit s
  | .tok j => if j = k then .lit v else .tok j

/-- Unfolding of render on a cons cell. -/
theorem renderCons (g : Seg) (rest : List Seg) :
    render (g :: rest) = g.renderOne ++ render rest := rfl

/-- Render distributes over append. -/
theorem renderAppend (x y : List Seg) : render (x ++ y) = render x ++ render y := by
  induction x with
  | nil => simp [render, cat]
  | cons g x ih =>
    rw [List.cons_append, renderCons, renderCons, ih, List.append_assoc]

/-- Two distinct brace-free token names cannot shadow each other before the
closing pair. -/
theorem midMismatch : ∀ (mk mj r : Str), braceFreeB mk = true → braceFreeB mj = true →
    mk ≠ mj → startsWithStr (mk ++ [rb, rb]) (mj ++ [rb, rb] ++ r) = false := by
  intro mk
  induction mk with
  | nil =>
    intro mj r _ hj hne
    cases mj with
    | nil => exact absurd rfl hne
    | cons c mj' =>
      have hc : c ≠ rb := ((braceFreeMem _ hj) c (by simp)).2
      simp only [List.nil_append, List.cons_append, startsWithStr, Bool.and_eq_false_iff]
      left
      simp only [beq_eq_false_iff_ne, ne_eq]
      exact fun he => hc he.symm
  | cons a mk' ih =>
    intro mj r hk hj hne
    cases mj with
    | nil =>
      have ha : a ≠ rb := ((braceFreeMem _ hk) a (by simp)).2
      simp only [List.nil_append, List.cons_append, startsWithStr, Bool.and_eq_false_iff]
      left
      simp only [beq_eq_false_iff_ne, ne_eq]
      exact ha
    | cons b mj' =>
      by_cases hab : a = b
      · subst hab
        have hk' : braceFreeB mk' = true := by
          rw [braceFreeB, List.all_cons, Bool.and_eq_true] at hk
          exact hk.2
        have hj' : braceFreeB mj' = true := by
          rw [braceFreeB, List.all_cons, Bool.and_eq_true] at hj
          exact hj.2
        have hne' : mk' ≠ mj' := fun h => hne (by rw [h])
        have := ih mj' r hk' hj' hne'
        simp only [List.cons_append, startsWithStr, Bool.and_eq_false_iff]
        right
        exact this
      · simp only [List.cons_append, startsWithStr, Bool.and_eq_false_iff]
        left
        simp only [beq_eq_false_iff_ne, ne_eq]
        exact hab


/-- A leading-part test fails on a mismatching first character. -/
theorem swsConsFalse (a : Char) (p : Str) (c : Char) (hc : c ≠ a) (s : Str) :
    startsWithStr (a :: p) (c :: s) = false := by
  simp only [startsWithStr, Bool.and_eq_false_iff]
  left
  simp only [beq_eq_false_iff_ne, ne_eq]
  exact fun h => hc h.symm

/-- Replacing token `k` in the rendered text of a well-formed segment list
rewrites exactly the `tok k` segments to the value and nothing else. -/
theorem replaceRender (k : Nat) (hk : k < 18) (v : Str) :
    ∀ (segs : List Seg), wfSegsB segs = true →
      pyReplace (keys k) v (render segs) = render (segs.map (substSeg k v)) := by
  intro segs
  induction segs with
  | nil =>
    intro _
    simpa [render, cat] using pyReplaceNil (keys k) v (keysNe k)
  | cons g rest ih =>
    intro hwf
    have hwfg : wfSegB g = true := by
      rw [wfSegsB, List.all_cons, Bool.and_eq_true] at hwf
      exact hwf.1
    have hwfrest : wfSegsB rest = true := by
      rw [wfSegsB, List.all_cons, Bool.and_eq_true] at hwf
      exact hwf.2
    cases g with
    | lit s =>
      have hbf : braceFreeB s = true := hwfg
      rw [renderCons, List.map_cons, renderCons]
      show pyReplace (keys k) v (s ++ render rest) =
        s ++ render (rest.map (substSeg k v))
      have hkey : keys k = lb :: (lb :: (midOf k ++ [rb, rb])) := rfl
      rw [hkey,
        replaceSkipNoHead lb _ v s (render rest) (fun c hc => (braceFreeMem s hbf c hc).1),
        ← hkey, ih hwfrest]
    | tok j =>
      have hj : j < 18 := of_decide_eq_true hwfg
      by_cases hjk : j = k
      · subst hjk
        rw [renderCons, List.map_cons]
        show pyReplace (keys j) v (keys j ++ render rest) =
          Seg.renderOne (substSeg j v (Seg.tok j)) ++ render (rest.map (substSeg j v))
        have hsub : substSeg j v (Seg.tok j) = Seg.lit v := by simp [substSeg]
        rw [hsub]
        show pyReplace (keys j) v (keys j ++ render rest) =
          v ++ render (rest.map (substSeg j v))
        rw [pyReplaceMatch (keys j) v _ (keysNe j) (swsRefl (keys j) (render rest)),
          List.drop_left, ih hwfrest]
      · have hkj : k ≠ j := fun h => hjk h.symm
        have hmm : startsWithStr (midOf k ++ [rb, rb])
            ((midOf j ++ [rb, rb]) ++ render rest) = false :=
          midMismatch (midOf k) (midOf j) (render rest) (midBraceFree k hk)
            (midBraceFree j hj) (midInj k hk j hj hkj)
        have hshape : keys j ++ render rest =
            lb :: (lb :: ((midOf j ++ [rb, rb]) ++ render rest)) := rfl
        have hns1 : startsWithStr (keys k)
            (lb :: (lb :: ((midOf j ++ [rb, rb]) ++ render rest))) = false := by
          show (lb == lb && (lb == lb && startsWithStr (midOf k ++ [rb, rb])
            ((midOf j ++ [rb, rb]) ++ render rest))) = false
          rw [hmm]
          simp
        have hns2 : startsWithStr (keys k)
            (lb :: ((midOf j ++ [rb, rb]) ++ render rest)) = false := by
          have hinner : startsWithStr (lb :: (midOf k ++ [rb, rb]))
              ((midOf j ++ [rb, rb]) ++ render rest) = false := by
            cases hmj : midOf j with
            | nil =>
              show startsWithStr (lb :: (midOf k ++ [rb, rb]))
                (rb :: (rb :: render rest)) = false
              exact swsConsFalse lb _ rb (by decide) _
            | cons c mj' =>
              have hbfj := midBraceFree j hj
              rw [hmj] at hbfj
              have hc : c ≠ lb := (braceFreeMem _ hbfj c (by simp)).1
              show startsWithStr (lb :: (midOf k ++ [rb, rb]))
                (c :: ((mj' ++ [rb, rb]) ++ render rest)) = false
              exact swsConsFalse lb _ c hc _
          show (lb == lb && startsWithStr (lb :: (midOf k ++ [rb, rb]))
            ((midOf j ++ [rb, rb]) ++ render rest)) = false
          rw [hinner]
          simp
        have hnsr1 : startsWithStr (keys k) (rb :: (rb :: render rest)) = false := by
          show startsWithStr (lb :: (lb :: (midOf k ++ [rb, rb]))) _ = false
          exact swsConsFalse lb _ rb (by decide) _
        have hnsr2 : startsWithStr (keys k) (rb :: render rest) = false := by
          show startsWithStr (lb :: (lb :: (midOf k ++ [rb, rb]))) _ = false
          exact swsConsFalse lb _ rb (by decide) _
        rw [renderCons, List.map_cons]
        show pyReplace (keys k) v (keys j ++ render rest) =
          Seg.renderOne (substSeg k v (Seg.tok j)) ++ render (rest.map (substSeg k v))
        have hsub : substSeg k v (Seg.tok j) = Seg.tok j := by simp [substSeg, hjk]
        rw [hsub]
        show pyReplace (keys k) v (keys j ++ render rest) =
          keys j ++ render (rest.map (substSeg k v))
        rw [hshape]
        rw [pyReplaceSkip (keys k) v lb _ (keysNe k) hns1]
        rw [pyReplaceSkip (keys k) v lb _ (keysNe k) hns2]
        rw [List.append_assoc]
        have hkey : keys k = lb :: (lb :: (midOf k ++ [rb, rb])) := rfl
        rw [hkey,
          replaceSkipNoHead lb _ v (midOf j) ([rb, rb] ++ render rest)
            (fun c hc => (braceFreeMem _ (midBraceFree j hj) c hc).1),
          ← hkey]
        have hrr : ([rb, rb] : Str) ++ render rest = rb :: (rb :: render rest) := rfl
        rw [hrr]
        rw [pyReplaceSkip (keys k) v rb _ (keysNe k) hnsr1]
        rw [pyReplaceSkip (keys k) v rb _ (keysNe k) hnsr2]
        rw [ih hwfrest]
        simp [keys, keyOf, List.append_assoc]


/-- Concatenation distributes over append. -/
theorem catAppend (x y : List Str) : cat (x ++ y) = cat x ++ cat y := by
  induction x with
  | nil => simp [cat]
  | cons a x ih =>
    show a ++ cat (x ++ y) = (a ++ cat x) ++ cat y
    rw [ih, List.append_assoc]

/-- A pattern occurring in a member occurs in the concatenation. -/
theorem catContainsOfMem (pat x : Str) (l : List Str) (hx : x ∈ l)
    (h : containsStr pat x = true) : containsStr pat (cat l) = true := by
  rcases List.append_of_mem hx with ⟨s1, s2, rfl⟩
  have hcons : cat (x :: s2) = x ++ cat s2 := rfl
  rw [catAppend, hcons]
  exact containsAppL pat _ _ (containsAppR pat _ _ h)

/-- A token segment makes the token occur in the rendered text. -/
theorem tokMemContains (k : Nat) (segs : List Seg) (h : Seg.tok k ∈ segs) :
    containsStr (keys k) (render segs) = true := by
  rcases List.append_of_mem h with ⟨s1, s2, rfl⟩
  rw [renderAppend, renderCons]
  show containsStr (keys k) (render s1 ++ (keys k ++ render s2)) = true
  exact (containsIff _ _).2 ⟨render s1, render s2, by rw [List.append_assoc]⟩

/-- Substitution of an absent token changes nothing. -/
theorem noTokMapId (k : Nat) (v : Str) :
    ∀ (segs : List Seg), Seg.tok k ∉ segs → segs.map (substSeg k v) = segs := by
  intro segs
  induction segs with
  | nil => intro _; rfl
  | cons g rest ih =>
    intro h
    have hg : substSeg k v g = g := by
      cases g with
      | lit s => rfl
      | tok j =>
        have : j ≠ k := fun he => h (by rw [he]; simp)
        simp [substSeg, this]
    have hrest : Seg.tok k ∉ rest := fun hr => h (by simp [hr])
    rw [List.map_cons, hg, ih hrest]

/-- Membership form of runs well-formedness. -/
theorem wfRunsMem (segss : List (List Seg)) (h : wfRunsB segss = true)
    (segs : List Seg) (hm : segs ∈ segss) : wfSegsB segs = true := by
  rw [wfRunsB, List.all_eq_true] at h
  exact h segs hm

/-- Substitution by a brace-free value preserves segment well-formedness. -/
theorem wfSubst (k : Nat) (v : Str) (hv : braceFreeB v = true) :
    ∀ (segs : List Seg), wfSegsB segs = true →
      wfSegsB (segs.map (substSeg k v)) = true := by
  intro segs
  induction segs with
  | nil => intro _; rfl
  | cons g rest ih =>
    intro h
    rw [wfSegsB, List.all_cons, Bool.and_eq_true] at h
    rw [List.map_cons, wfSegsB, List.all_cons, Bool.and_eq_true]
    refine ⟨?_, ih h.2⟩
    cases g with
    | lit s => exact h.1
    | tok j =>
      by_cases hjk : j = k
      · simp [substSeg, hjk, wfSegB, hv]
      · simp only [substSeg, if_neg hjk]
        exact h.1

/-- One replacement step on a well-formed paragraph, at the segment level.
Both the paragraph-text guard and the per-run guard of app.py 129-137 land
on the same segment-level substitution. -/
theorem fillParaStepRender (k : Nat) (hk : k < 18) (v : Str)
    (segss : List (List Seg)) (hwf : wfRunsB segss = true) :
    fillParaStep (segss.map render) (keys k, v) =
      segss.map (fun segs => render (segs.map (substSeg k v))) := by
  by_cases hguard : containsStr (keys k) (paraText (segss.map render)) = true
  · rw [fillParaStep, if_pos hguard, fillRuns, List.map_map]
    apply List.map_congr_left
    intro segs hm
    simp only [Function.comp_apply]
    by_cases hrun : containsStr (keys k) (render segs) = true
    · rw [if_pos hrun]
      exact replaceRender k hk v segs (wfRunsMem segss hwf segs hm)
    · rw [if_neg hrun]
      have : Seg.tok k ∉ segs := fun hmem => hrun (tokMemContains k segs hmem)
      rw [noTokMapId k v segs this]
  · rw [fillParaStep, if_neg hguard]
    have hall : ∀ segs ∈ segss, Seg.tok k ∉ segs := by
      intro segs hm hmem
      exact hguard (catContainsOfMem (keys k) (render segs) _
        (List.mem_map_of_mem render hm) (tokMemContains k segs hmem))
    symm
    apply List.map_congr_left
    intro segs hm
    rw [noTokMapId k v segs (hall segs hm)]

/-- Sequential segment-level substitution for a list of token indices. -/
def multiSubst (data : Lawsuit) (ks : List Nat) (segs : List Seg) : List Seg :=
  ks.foldl (fun sg k => sg.map (substSeg k (vals data k))) segs

/-- The full replacement loop on a well-formed paragraph, at the segment
level: the 18 keys are processed in order, each rewriting its own token
segments only. -/
theorem fillParagraphRender (data : Lawsuit) :
    ∀ (ks : List Nat), (∀ k ∈ ks, k < 18) →
      (∀ k ∈ ks, braceFreeB (vals data k) = true) →
      ∀ (segss : List (List Seg)), wfRunsB segss = true →
        fillParagraph (ks.map (fun k => (keys k, vals data k))) (segss.map render) =
          segss.map (fun segs => render (multiSubst data ks segs)) := by
  intro ks
  induction ks with
  | nil =>
    intro _ _ segss _
    rfl
  | cons k ks' ih =>
    intro hks hvals segss hwf
    have hk : k < 18 := hks k (by simp)
    have hv : braceFreeB (vals data k) = true := hvals k (by simp)
    have hstep : fillParagraph ((k :: ks').map (fun k => (keys k, vals data k)))
        (segss.map render) = fillParagraph (ks'.map (fun k => (keys k, vals data k)))
          (fillParaStep (segss.map render) (keys k, vals data k)) := rfl
    rw [hstep, fillParaStepRender k hk (vals data k) segss hwf]
    have hmaps : segss.map (fun segs => render (segs.map (substSeg k (vals data k)))) =
        (segss.map (fun segs => segs.map (substSeg k (vals data k)))).map render := by
      rw [List.map_map]
      rfl
    rw [hmaps]
    have hwf' : wfRunsB (segss.map (fun segs => segs.map (substSeg k (vals data k)))) = true := by
      rw [wfRunsB, List.all_eq_true]
      intro x hx
      rcases List.mem_map.1 hx with ⟨segs, hm, rfl⟩
      exact wfSubst k (vals data k) hv segs (wfRunsMem segss hwf segs hm)
    rw [ih (fun j hj => hks j (by simp [hj])) (fun j hj => hvals j (by simp [hj])) _ hwf']
    rw [List.map_map]
    rfl


/-- Invariant of sequential substitution: segments stay well-formed, and a
surviving token was already there and has not been processed. -/
theorem multiSubstInv (data : Lawsuit) :
    ∀ (ks : List Nat) (segs : List Seg),
      (∀ k ∈ ks, braceFreeB (vals data k) = true) →
      wfSegsB segs = true →
      ∀ seg ∈ multiSubst data ks segs,
        wfSegB seg = true ∧ ∀ j, seg = Seg.tok j → j ∉ ks ∧ Seg.tok j ∈ segs := by
  intro ks
  induction ks with
  | nil =>
    intro segs _ hwf seg hm
    rw [wfSegsB, List.all_eq_true] at hwf
    exact ⟨hwf seg hm, fun j hj => ⟨by simp, by rw [← hj]; exact hm⟩⟩
  | cons k ks' ih =>
    intro segs hvals hwf seg hm
    have hstep : multiSubst data (k :: ks') segs =
        multiSubst data ks' (segs.map (substSeg k (vals data k))) := rfl
    rw [hstep] at hm
    have hwf' : wfSegsB (segs.map (substSeg k (vals data k))) = true :=
      wfSubst k (vals data k) (hvals k (by simp)) segs hwf
    have := ih (segs.map (substSeg k (vals data k)))
      (fun j hj => hvals j (by simp [hj])) hwf' seg hm
    refine ⟨this.1, fun j hj => ?_⟩
    rcases this.2 j hj with ⟨hnot, hmem⟩
    rcases List.mem_map.1 hmem with ⟨x, hx, hsub⟩
    have hxj : x = Seg.tok j ∧ j ≠ k := by
      cases x with
      | lit s => simp [substSeg] at hsub
      | tok i =>
        by_cases hik : i = k
        · rw [substSeg, if_pos hik] at hsub
          cases hsub
        · rw [substSeg, if_neg hik] at hsub
          cases hsub
          exact ⟨rfl, hik⟩
    refine ⟨?_, hxj.1 ▸ hx⟩
    intro hjmem
    rcases List.mem_cons.1 hjmem with hjk | hjks
    · exact hxj.2 hjk
    · exact hnot hjks

/-- Brace-freeness of a concatenation from brace-freeness of the parts. -/
theorem braceFreeCat (l : List Str) (h : ∀ x ∈ l, braceFreeB x = true) :
    braceFreeB (cat l) = true := by
  induction l with
  | nil => rfl
  | cons x t ih =>
    have hcons : cat (x :: t) = x ++ cat t := rfl
    rw [hcons, braceFreeB, List.all_append, Bool.and_eq_true]
    exact ⟨h x (by simp), ih (fun y hy => h y (by simp [hy]))⟩

/-- After processing all 18 keys with brace-free values, a well-formed run
renders to a brace-free text. -/
theorem multiSubstBraceFree (data : Lawsuit)
    (hvals : ∀ k, k < 18 → braceFreeB (vals data k) = true)
    (segs : List Seg) (hwf : wfSegsB segs = true) :
    braceFreeB (render (multiSubst data (List.range 18) segs)) = true := by
  apply braceFreeCat
  intro x hx
  rcases List.mem_map.1 hx with ⟨seg, hm, rfl⟩
  have hinv := multiSubstInv data (List.range 18) segs
    (fun k hk => hvals k (List.mem_range.1 hk)) hwf seg hm
  cases seg with
  | lit s => exact hinv.1
  | tok j =>
    have hj : j < 18 := of_decide_eq_true hinv.1
    exact absurd (List.mem_range.2 hj) (hinv.2 j rfl).1

/-- Sequential substitution distributes over segment append. -/
theorem multiSubstAppend (data : Lawsuit) :
    ∀ (ks : List Nat) (x y : List Seg),
      multiSubst data ks (x ++ y) = multiSubst data ks x ++ multiSubst data ks y := by
  intro ks
  induction ks with
  | nil => intro x y; rfl
  | cons k ks' ih =>
    intro x y
    have hstep : multiSubst data (k :: ks') (x ++ y) =
        multiSubst data ks' ((x ++ y).map (substSeg k (vals data k))) := rfl
    rw [hstep, List.map_append, ih]
    rfl

/-- A literal segment survives every substitution step. -/
theorem multiSubstLit (data : Lawsuit) :
    ∀ (ks : List Nat) (s : Str), multiSubst data ks [Seg.lit s] = [Seg.lit s] := by
  intro ks
  induction ks with
  | nil => intro s; rfl
  | cons a t ih => intro s; exact ih s

/-- A processed token segment becomes exactly its value. -/
theorem multiSubstTokDone (data : Lawsuit) :
    ∀ (ks : List Nat) (k : Nat), k ∈ ks →
      multiSubst data ks [Seg.tok k] = [Seg.lit (vals data k)] := by
  intro ks
  induction ks with
  | nil => intro k hk; cases hk
  | cons k' ks' ih =>
    intro k hk
    by_cases hkk : k = k'
    · subst hkk
      have hstep : multiSubst data (k :: ks') [Seg.tok k] =
          multiSubst data ks' [substSeg k (vals data k) (Seg.tok k)] := rfl
      rw [hstep]
      have hsub : substSeg k (vals data k) (Seg.tok k) = Seg.lit (vals data k) := by
        simp [substSeg]
      rw [hsub]
      exact multiSubstLit data ks' (vals data k)
    · have hmem : k ∈ ks' := by
        rcases List.mem_cons.1 hk with h | h
        · exact absurd h hkk
        · exact h
      have hstep : multiSubst data (k' :: ks') [Seg.tok k] =
          multiSubst data ks' [substSeg k' (vals data k') (Seg.tok k)] := rfl
      rw [hstep]
      have hsub : substSeg k' (vals data k') (Seg.tok k) = Seg.tok k := by
        simp [substSeg]
        intro h
        exact absurd h hkk
      rw [hsub]
      exact ih k hmem

/-- After the full pass, a run that carried a token contains its value. -/
theorem multiSubstValue (data : Lawsuit) (ks : List Nat) (k : Nat) (hk : k ∈ ks)
    (segs : List Seg) (hmem : Seg.tok k ∈ segs) :
    containsStr (vals data k) (render (multiSubst data ks segs)) = true := by
  rcases List.append_of_mem hmem with ⟨s1, s2, rfl⟩
  have hsplit : (s1 ++ Seg.tok k :: s2 : List Seg) = s1 ++ ([Seg.tok k] ++ s2) := by simp
  rw [hsplit, multiSubstAppend, multiSubstAppend, multiSubstTokDone data ks k hk]
  rw [renderAppend, renderAppend]
  have hone : render [Seg.lit (vals data k)] = vals data k := by
    simp [render, cat, Seg.renderOne]
  rw [hone]
  exact (containsIff _ _).2 ⟨render (multiSubst data ks s1), render (multiSubst data ks s2),
    by rw [List.append_assoc]⟩


/-!
How stripping and joining interact with occurrences and brace-freeness.
-/

/-- Occurrence is stable under reversal. -/
theorem containsReverse (pat s : Str) :
    containsStr pat s = true → containsStr pat.reverse s.reverse = true := by
  intro h
  rcases (containsIff pat s).1 h with ⟨a, b, rfl⟩
  refine (containsIff _ _).2 ⟨b.reverse, a.reverse, ?_⟩
  simp [List.reverse_append, List.append_assoc]

/-- An occurrence whose first character fails the predicate survives a
front `dropWhile`. -/
theorem dropWhileKeep (P : Char → Bool) (pat : Str) (c : Char)
    (hc : pat.head? = some c) (hcP : P c = false) :
    ∀ s, containsStr pat s = true → containsStr pat (s.dropWhile P) = true := by
  intro s
  induction s with
  | nil =>
    intro h
    cases pat with
    | nil => simp at hc
    | cons x p => simp [containsStr, startsWithStr] at h
  | cons d t ih =>
    intro h
    by_cases hd : P d = true
    · rw [List.dropWhile_cons_of_pos hd]
      apply ih
      rw [containsCons, Bool.or_eq_true] at h
      rcases h with hs | hcont
      · exfalso
        cases pat with
        | nil => simp at hc
        | cons x p =>
          cases hc
          simp only [startsWithStr, Bool.and_eq_true, beq_iff_eq] at hs
          rw [hs.1] at hcP
          rw [hd] at hcP
          cases hcP
      · exact hcont
    · rw [List.dropWhile_cons_of_neg (by simpa using hd)]
      exact h

/-- A trimmed string keeps any occurrence whose end characters are not
whitespace. -/
theorem stripKeeps (pat : Str) (c c' : Char) (hc : pat.head? = some c)
    (hcw : c.isWhitespace = false) (hc' : pat.getLast? = some c')
    (hcw' : c'.isWhitespace = false) (s : Str) (h : containsStr pat s = true) :
    containsStr pat (pyStrip s) = true := by
  have h1 : containsStr pat (s.dropWhile Char.isWhitespace) = true :=
    dropWhileKeep Char.isWhitespace pat c hc hcw s h
  have h2 : containsStr pat.reverse (s.dropWhile Char.isWhitespace).reverse = true :=
    containsReverse pat _ h1
  have hc'' : pat.reverse.head? = some c' := by
    rw [List.head?_reverse]
    exact hc'
  have h3 : containsStr pat.reverse
      ((s.dropWhile Char.isWhitespace).reverse.dropWhile Char.isWhitespace) = true :=
    dropWhileKeep Char.isWhitespace pat.reverse c' hc'' hcw' _ h2
  have h4 := containsReverse pat.reverse _ h3
  rw [List.reverse_reverse] at h4
  exact h4

/-- Characters of a trimmed string come from the string. -/
theorem memStrip (c : Char) (s : Str) (h : c ∈ pyStrip s) : c ∈ s := by
  rw [pyStrip, List.mem_reverse] at h
  have h1 := (List.dropWhile_sublist (l := (s.dropWhile Char.isWhitespace).reverse)
    (p := Char.isWhitespace)).mem h
  rw [List.mem_reverse] at h1
  exact (List.dropWhile_sublist (l := s) (p := Char.isWhitespace)).mem h1

/-- Trimming preserves brace-freeness. -/
theorem braceFreeStrip (s : Str) (h : braceFreeB s = true) :
    braceFreeB (pyStrip s) = true := by
  rw [braceFreeB, List.all_eq_true]
  intro c hc
  rw [braceFreeB, List.all_eq_true] at h
  exact h c (memStrip c s hc)

/-- A member's occurrence survives the newline join. -/
theorem joinNLContainsOfMem (pat x : Str) :
    ∀ (l : List Str), x ∈ l → containsStr pat x = true →
      containsStr pat (joinNL l) = true := by
  intro l
  induction l with
  | nil => intro hx; cases hx
  | cons y t ih =>
    intro hx h
    cases t with
    | nil =>
      rcases List.mem_singleton.1 hx with rfl
      exact h
    | cons z t' =>
      have hjoin : joinNL (y :: z :: t') = y ++ nl :: joinNL (z :: t') := rfl
      rw [hjoin]
      rcases List.mem_cons.1 hx with rfl | hmem
      · exact containsAppR pat x _ h
      · have hrec : containsStr pat (joinNL (z :: t')) = true := ih hmem h
        have hres : containsStr pat ((y ++ [nl]) ++ joinNL (z :: t')) = true :=
          containsAppL pat (y ++ [nl]) _ hrec
        simpa [List.append_assoc] using hres

/-- The newline join of brace-free parts is brace-free. -/
theorem braceFreeJoinNL : ∀ (l : List Str), (∀ x ∈ l, braceFreeB x = true) →
    braceFreeB (joinNL l) = true := by
  intro l
  induction l with
  | nil => intro _; rfl
  | cons y t ih =>
    intro h
    cases t with
    | nil => exact h y (by simp)
    | cons z t' =>
      have hjoin : joinNL (y :: z :: t') = y ++ nl :: joinNL (z :: t') := rfl
      rw [hjoin, braceFreeB, List.all_append, Bool.and_eq_true]
      refine ⟨h y (by simp), ?_⟩
      rw [List.all_cons, Bool.and_eq_true]
      refine ⟨by decide, ?_⟩
      have := ih (fun x hx => h x (by simp [hx]))
      exact this

/-- Brace-free text contains no placeholder token. -/
theorem braceFreeNoKey (k : Nat) (s : Str) (h : braceFreeB s = true) :
    containsStr (keys k) s = false := by
  by_contra hcon
  rw [Bool.not_eq_false] at hcon
  have hlb : lb ∈ s := containsHeadMem (keys k) s lb (keysHead k) hcon
  exact (braceFreeMem s h lb hlb).1 rfl


/-!
Document-level plumbing: what generate_docx's traversal does to the pieces
that text extraction reads.
-/

/-- The paragraphs generate_docx rewrites: body-level paragraphs and direct
paragraphs of cells of body-level tables. -/
def allFilledParas (d : Document) : List Paragraph :=
  docParagraphs d ++
    (docTables d).flatMap (fun t => t.rows.flatMap (fun row => row.flatMap Cell.paragraphs))

/-- Filling maps body-level paragraphs pointwise. -/
theorem docParagraphsFill (data : Lawsuit) (d : Document) :
    docParagraphs (fillDocument data d) =
      (docParagraphs d).map (fillParagraph (replacements data)) := by
  show (d.body.map (fillBlock (replacements data))).filterMap _ =
    (d.body.filterMap _).map (fillParagraph (replacements data))
  induction d.body with
  | nil => rfl
  | cons b bs ih =>
    cases b with
    | para p => simpa [fillBlock] using ih
    | table t => simpa [fillBlock] using ih

/-- Filling maps body-level tables pointwise. -/
theorem docTablesFill (data : Lawsuit) (d : Document) :
    docTables (fillDocument data d) =
      (docTables d).map (fillTable (replacements data)) := by
  show (d.body.map (fillBlock (replacements data))).filterMap _ =
    (d.body.filterMap _).map (fillTable (replacements data))
  induction d.body with
  | nil => rfl
  | cons b bs ih =>
    cases b with
    | para p => simpa [fillBlock] using ih
    | table t => simpa [fillBlock] using ih

/-- Rows of a filled table. -/
theorem fillTableRows (reps : List (Str × Str)) (t : Table) :
    (fillTable reps t).rows = t.rows.map (fun row => row.map (fillCell reps)) := by
  cases t
  rfl

/-- Direct paragraphs of a filled cell. -/
theorem fillCellParas (reps : List (Str × Str)) (c : Cell) :
    (fillCell reps c).paragraphs = c.paragraphs.map (fillParagraph reps) := by
  cases c
  rfl

/-- Text of a filled cell. -/
theorem cellTextFill (reps : List (Str × Str)) (c : Cell) :
    cellText (fillCell reps c) =
      joinNL (c.paragraphs.map (fun p => paraText (fillParagraph reps p))) := by
  rw [cellText, fillCellParas, List.map_map]
  rfl

/-- A non-empty pattern does not occur in the empty string. -/
theorem containsNe (pat s : Str) (h : containsStr pat s = true) (hp : pat ≠ []) :
    s ≠ [] := by
  rcases (containsIff pat s).1 h with ⟨a, b, rfl⟩
  cases a with
  | nil =>
    cases pat with
    | nil => exact absurd rfl hp
    | cons x p => simp
  | cons x a' => simp

/-- Every extracted part of a filled document is the trimmed text of a filled
body paragraph or the trimmed text of a filled cell of a body table. -/
theorem extractPartsFillForm (data : Lawsuit) (d : Document) :
    ∀ x ∈ extractParts (fillDocument data d),
      (∃ p ∈ docParagraphs d,
        x = pyStrip (paraText (fillParagraph (replacements data) p))) ∨
      (∃ t ∈ docTables d, ∃ row ∈ t.rows, ∃ c ∈ row,
        x = pyStrip (joinNL (c.paragraphs.map
          (fun p => paraText (fillParagraph (replacements data) p))))) := by
  intro x hx
  rw [extractParts] at hx
  rcases List.mem_append.1 hx with hpar | htab
  · left
    rcases List.mem_filter.1 hpar with ⟨hmem, _⟩
    rcases List.mem_map.1 hmem with ⟨p, hp, rfl⟩
    rw [docParagraphsFill] at hp
    rcases List.mem_map.1 hp with ⟨p0, hp0, rfl⟩
    exact ⟨p0, hp0, rfl⟩
  · right
    rcases List.mem_filter.1 htab with ⟨hmem, _⟩
    rcases List.mem_map.1 hmem with ⟨y, hy, rfl⟩
    rcases List.mem_flatMap.1 hy with ⟨t, ht, hyt⟩
    rw [docTablesFill] at ht
    rcases List.mem_map.1 ht with ⟨t0, ht0, rfl⟩
    rcases List.mem_flatMap.1 hyt with ⟨row, hrow, hyr⟩
    rw [fillTableRows] at hrow
    rcases List.mem_map.1 hrow with ⟨row0, hrow0, rfl⟩
    rcases List.mem_map.1 hyr with ⟨c0, hc0, rfl⟩
    rcases List.mem_map.1 hc0 with ⟨c1, hc1, rfl⟩
    exact ⟨t0, ht0, row0, hrow0, c1, hc1, by rw [cellTextFill]⟩

/-- The trimmed text of a filled body paragraph, if non-empty, is among the
extracted parts of the filled document. -/
theorem extractPartsFillMemPara (data : Lawsuit) (d : Document) (p : Paragraph)
    (hp : p ∈ docParagraphs d)
    (hne : (pyStrip (paraText (fillParagraph (replacements data) p))).isEmpty = false) :
    pyStrip (paraText (fillParagraph (replacements data) p)) ∈
      extractParts (fillDocument data d) := by
  rw [extractParts]
  apply List.mem_append.2
  left
  apply List.mem_filter.2
  refine ⟨?_, by simp [hne]⟩
  apply List.mem_map.2
  refine ⟨fillParagraph (replacements data) p, ?_, rfl⟩
  rw [docParagraphsFill]
  exact List.mem_map_of_mem _ hp

/-- The trimmed text of a filled cell of a body table, if non-empty, is among
the extracted parts of the filled document. -/
theorem extractPartsFillMemCell (data : Lawsuit) (d : Document) (t : Table)
    (ht : t ∈ docTables d) (row : List Cell) (hrow : row ∈ t.rows) (c : Cell)
    (hc : c ∈ row)
    (hne : (pyStrip (cellText (fillCell (replacements data) c))).isEmpty = false) :
    pyStrip (cellText (fillCell (replacements data) c)) ∈
      extractParts (fillDocument data d) := by
  rw [extractParts]
  apply List.mem_append.2
  right
  apply List.mem_filter.2
  refine ⟨?_, by simp [hne]⟩
  apply List.mem_map.2
  refine ⟨cellText (fillCell (replacements data) c), ?_, rfl⟩
  apply List.mem_flatMap.2
  refine ⟨fillTable (replacements data) t, ?_, ?_⟩
  · rw [docTablesFill]
    exact List.mem_map_of_mem _ ht
  · apply List.mem_flatMap.2
    refine ⟨row.map (fillCell (replacements data)), ?_, ?_⟩
    · rw [fillTableRows]
      exact List.mem_map_of_mem _ hrow
    · exact List.mem_map_of_mem cellText (List.mem_map_of_mem _ hc)


/-!
Assembled results about filling well-formed templates.
-/

/-- A well-formed template paragraph: each run is rendered by brace-free
literals and whole tokens, so every brace belongs to a whole token. -/
def wfPara (p : Paragraph) : Prop :=
  ∃ segss, p = List.map render segss ∧ wfRunsB segss = true

/-- A value fit for the round-trip property: brace-free, non-empty, and not
opening or closing with whitespace. -/
def tameVal (v : Str) : Bool :=
  braceFreeB v && !v.isEmpty &&
    (match v.head? with | some c => !c.isWhitespace | none => false) &&
    (match v.getLast? with | some c => !c.isWhitespace | none => false)

/-- Components of the tameness test. -/
theorem tameParts (v : Str) (h : tameVal v = true) :
    braceFreeB v = true ∧ v ≠ [] ∧
      (∃ c, v.head? = some c ∧ c.isWhitespace = false) ∧
      (∃ c, v.getLast? = some c ∧ c.isWhitespace = false) := by
  rw [tameVal, Bool.and_eq_true, Bool.and_eq_true, Bool.and_eq_true] at h
  refine ⟨h.1.1.1, ?_, ?_, ?_⟩
  · intro hnil
    subst hnil
    simp at h
  · rcases hv : v.head? with _ | c
    · rw [hv] at h
      rcases h with ⟨⟨_, h3⟩, _⟩
      cases h3
    · rw [hv] at h
      rcases h with ⟨⟨_, h3⟩, _⟩
      exact ⟨c, rfl, by simpa using h3⟩
  · rcases hv : v.getLast? with _ | c
    · rw [hv] at h
      rcases h with ⟨_, h4⟩
      cases h4
    · rw [hv] at h
      rcases h with ⟨_, h4⟩
      exact ⟨c, rfl, by simpa using h4⟩

/-- Filling a well-formed paragraph with brace-free values leaves a
brace-free text. -/
theorem fillParaBraceFree (data : Lawsuit)
    (hvals : ∀ k, k < 18 → braceFreeB (vals data k) = true)
    (p : Paragraph) (hp : wfPara p) :
    braceFreeB (paraText (fillParagraph (replacements data) p)) = true := by
  obtain ⟨segss, rfl, hwf⟩ := hp
  rw [replacements_eq_range,
    fillParagraphRender data (List.range 18) (fun k hk => List.mem_range.1 hk)
      (fun k hk => hvals k (List.mem_range.1 hk)) segss hwf]
  apply braceFreeCat
  intro x hx
  rcases List.mem_map.1 hx with ⟨segs, hm, rfl⟩
  exact multiSubstBraceFree data hvals segs (wfRunsMem segss hwf segs hm)

/-- Filling a well-formed paragraph carrying token `k` puts value `k` into
its text. -/
theorem fillParaValuePresent (data : Lawsuit)
    (hvals : ∀ j, j < 18 → braceFreeB (vals data j) = true)
    (segss : List (List Seg)) (hwf : wfRunsB segss = true) (k : Nat) (hk : k < 18)
    (segs : List Seg) (hsegs : segs ∈ segss) (htok : Seg.tok k ∈ segs) :
    containsStr (vals data k)
      (paraText (fillParagraph (replacements data) (List.map render segss))) = true := by
  rw [replacements_eq_range,
    fillParagraphRender data (List.range 18) (fun j hj => List.mem_range.1 hj)
      (fun j hj => hvals j (List.mem_range.1 hj)) segss hwf]
  exact catContainsOfMem (vals data k) (render (multiSubst data (List.range 18) segs)) _
    (List.mem_map_of_mem _ hsegs)
    (multiSubstValue data _ k (List.mem_range.2 hk) segs htok)

/-- Body-level paragraphs are rewritten paragraphs. -/
theorem paraMemAll (d : Document) (p : Paragraph) (hp : p ∈ docParagraphs d) :
    p ∈ allFilledParas d :=
  List.mem_append.2 (Or.inl hp)

/-- Direct cell paragraphs of body tables are rewritten paragraphs. -/
theorem cellParaMemAll (d : Document) (t : Table) (row : List Cell) (c : Cell)
    (p : Paragraph) (ht : t ∈ docTables d) (hrow : row ∈ t.rows) (hc : c ∈ row)
    (hp : p ∈ c.paragraphs) : p ∈ allFilledParas d := by
  apply List.mem_append.2
  right
  apply List.mem_flatMap.2
  exact ⟨t, ht, List.mem_flatMap.2 ⟨row, hrow, List.mem_flatMap.2 ⟨c, hc, hp⟩⟩⟩

/-- Extracted text of a filled well-formed template is brace-free. -/
theorem extractFillBraceFree (data : Lawsuit) (d : Document)
    (hwf : ∀ p ∈ allFilledParas d, wfPara p)
    (hvals : ∀ k, k < 18 → braceFreeB (vals data k) = true) :
    braceFreeB (extractContent (fillDocument data d)) = true := by
  rw [extractContent]
  apply braceFreeJoinNL
  intro x hx
  rcases extractPartsFillForm data d x hx with ⟨p, hp, hxeq⟩ | ⟨t, ht, row, hrow, c, hc, hxeq⟩
  · rw [hxeq]
    exact braceFreeStrip _ (fillParaBraceFree data hvals p (hwf p (paraMemAll d p hp)))
  · rw [hxeq]
    apply braceFreeStrip
    apply braceFreeJoinNL
    intro y hy
    rcases List.mem_map.1 hy with ⟨p, hpmem, hyeq⟩
    rw [← hyeq]
    exact fillParaBraceFree data hvals p
      (hwf p (cellParaMemAll d t row c p ht hrow hc hpmem))

/-- Extracted text of a filled well-formed template contains value `k` when
some rewritten paragraph carries token `k` and the value is tame. -/
theorem extractFillValue (data : Lawsuit) (d : Document) (k : Nat) (hk : k < 18)
    (hvals : ∀ j, j < 18 → braceFreeB (vals data j) = true)
    (htame : tameVal (vals data k) = true)
    (segss : List (List Seg)) (hwfs : wfRunsB segss = true)
    (hmem : List.map render segss ∈ allFilledParas d)
    (segs : List Seg) (hsegs : segs ∈ segss) (htok : Seg.tok k ∈ segs) :
    containsStr (vals data k) (extractContent (fillDocument data d)) = true := by
  rcases tameParts _ htame with ⟨_, hne, ⟨ch, hch, hchw⟩, ⟨cl, hcl, hclw⟩⟩
  have hval := fillParaValuePresent data hvals segss hwfs k hk segs hsegs htok
  rw [extractContent]
  rcases List.mem_append.1 hmem with hpar | htab
  · have hkeep : containsStr (vals data k)
        (pyStrip (paraText (fillParagraph (replacements data)
          (List.map render segss)))) = true :=
      stripKeeps _ ch cl hch hchw hcl hclw _ hval
    apply joinNLContainsOfMem _ _ _ _ hkeep
    apply extractPartsFillMemPara data d _ hpar
    have := containsNe _ _ hkeep hne
    cases hstrip : pyStrip (paraText (fillParagraph (replacements data)
      (List.map render segss))) with
    | nil => exact absurd hstrip this
    | cons a l => rfl
  · rcases List.mem_flatMap.1 htab with ⟨t, ht, hmt⟩
    rcases List.mem_flatMap.1 hmt with ⟨row, hrow, hmr⟩
    rcases List.mem_flatMap.1 hmr with ⟨c, hc, hmc⟩
    have hcell : containsStr (vals data k) (cellText (fillCell (replacements data) c)) = true := by
      rw [cellTextFill]
      exact joinNLContainsOfMem _ _ _
        (List.mem_map_of_mem _ hmc) hval
    have hkeep : containsStr (vals data k)
        (pyStrip (cellText (fillCell (replacements data) c))) = true :=
      stripKeeps _ ch cl hch hchw hcl hclw _ hcell
    apply joinNLContainsOfMem _ _ _ _ hkeep
    apply extractPartsFillMemCell data d t ht row hrow c hc
    have := containsNe _ _ hkeep hne
    cases hstrip : pyStrip (cellText (fillCell (replacements data) c)) with
    | nil => exact absurd hstrip this
    | cons a l => rfl


/-!
A token split across runs: the fragments are never touched by any
replacement step.
-/

/-- The per-run rewriting function of app.py 134-137. -/
def runSub (key value : Str) : Str → Str :=
  fun r => if containsStr key r = true then pyReplace key value r else r

/-- The run loop is the map of the per-run rewriting. -/
theorem fillRunsEq (key value : Str) (runs : Paragraph) :
    fillRuns key value runs = runs.map (runSub key value) := rfl

/-- A token occurrence forces an adjacent left-brace pair. -/
theorem containsKeyHasLL (k' : Nat) (s : Str) (h : containsStr (keys k') s = true) :
    hasPair lb lb s = true := by
  rcases (containsIff _ _).1 h with ⟨a, b, hab⟩
  rw [hab, List.append_assoc]
  have hsh : keys k' ++ b = lb :: (lb :: ((midOf k' ++ [rb, rb]) ++ b)) := rfl
  rw [hsh]
  exact hasPairSplit lb lb a _

/-- A pair in a member gives a pair in the concatenation. -/
theorem catHasPairOfMem (a b : Char) (m : Str) (l : List Str) (hm : m ∈ l)
    (h : hasPair a b m = true) : hasPair a b (cat l) = true := by
  rcases List.append_of_mem hm with ⟨s1, s2, rfl⟩
  rw [catAppend]
  have hcons : cat (m :: s2) = m ++ cat s2 := rfl
  rw [hcons]
  exact hasPairAppL a b (cat s1) _ (hasPairAppR a b m _ h)

/-- Length bookkeeping of a split token. -/
theorem splitLen (k : Nat) (F G : Str) (M : List Str)
    (hsplit : F ++ cat M ++ G = keys k) :
    (keys k).length = F.length + (cat M).length + G.length := by
  rw [← hsplit]
  simp [List.length_append]
  omega

/-- The opening fragment has no adjacent right-brace pair. -/
theorem splitFpair (k : Nat) (hk : k < 18) (F G : Str) (M : List Str)
    (hG : G ≠ []) (hsplit : F ++ cat M ++ G = keys k) :
    hasPair rb rb F = false := by
  have htake : (keys k).take F.length = F := by
    rw [← hsplit, List.append_assoc, List.take_left]
  have hlen := splitLen k F G M hsplit
  have hGpos : 0 < G.length := List.length_pos.2 hG
  have h23 := keysShort k hk
  have := keysNoRRTake k hk F.length (by omega) (by omega)
  rw [htake] at this
  exact this

/-- The opening fragment starts with a left brace. -/
theorem splitFhead (k : Nat) (F G : Str) (M : List Str)
    (hF : F ≠ []) (hsplit : F ++ cat M ++ G = keys k) :
    F.head? = some lb := by
  cases F with
  | nil => exact absurd rfl hF
  | cons c F' =>
    have hc : (keys k).head? = some c := by
      rw [← hsplit]
      rfl
    rw [keysHead k] at hc
    rw [Option.some.injEq] at hc
    rw [hc]
    rfl

/-- No token occurs inside a middle fragment. -/
theorem splitMnoKey (k : Nat) (hk : k < 18) (F G : Str) (M : List Str)
    (hF : F ≠ []) (hsplit : F ++ cat M ++ G = keys k) (k' : Nat) :
    ∀ m ∈ M, containsStr (keys k') m = false := by
  intro m hm
  by_contra hcon
  rw [Bool.not_eq_false] at hcon
  have h3 : hasPair lb lb (cat M ++ G) = true :=
    hasPairAppR lb lb _ _ (catHasPairOfMem lb lb m M hm (containsKeyHasLL k' m hcon))
  have hdropF : (keys k).drop F.length = cat M ++ G := by
    rw [← hsplit, List.append_assoc, List.drop_left]
  have hFpos : 0 < F.length := List.length_pos.2 hF
  have hlen := splitLen k F G M hsplit
  have h23 := keysShort k hk
  have h4 := keysNoLLDrop k hk F.length (by omega) (by omega)
  rw [hdropF, h3] at h4
  cases h4

/-- The closing fragment has no adjacent left-brace pair. -/
theorem splitGpair (k : Nat) (hk : k < 18) (F G : Str) (M : List Str)
    (hF : F ≠ []) (hsplit : F ++ cat M ++ G = keys k) :
    hasPair lb lb G = false := by
  have hdrop : (keys k).drop (F ++ cat M).length = G := by
    rw [← hsplit, List.drop_left]
  have hFpos : 0 < F.length := List.length_pos.2 hF
  have hlen := splitLen k F G M hsplit
  have h23 := keysShort k hk
  have h4 := keysNoLLDrop k hk (F ++ cat M).length
    (by rw [List.length_append]; omega) (by rw [List.length_append]; omega)
  rw [hdrop] at h4
  exact h4

/-- The closing fragment ends with a right brace. -/
theorem splitGlast (k : Nat) (hk : k < 18) (F G : Str) (M : List Str)
    (hG : G ≠ []) (hsplit : F ++ cat M ++ G = keys k) :
    G.getLast? = some rb := by
  have h1 : (keys k).getLast? = G.getLast? := by
    rw [← hsplit]
    exact List.getLast?_append_of_ne_nil (F ++ cat M) hG
  rw [keysLast k hk] at h1
  exact h1.symm

/-- One replacement step keeps the three fragments of a split token intact
and in place. -/
theorem fillParaStepSplitKeep (k : Nat) (hk : k < 18) (F G : Str) (M : List Str)
    (hF : F ≠ []) (hG : G ≠ []) (hsplit : F ++ cat M ++ G = keys k)
    (k' : Nat) (v : Str) (pre post : List Str) (p q : Str) :
    ∃ pre' p' q' post',
      fillParaStep (pre ++ [p ++ F] ++ M ++ [G ++ q] ++ post) (keys k', v) =
        pre' ++ [p' ++ F] ++ M ++ [G ++ q'] ++ post' := by
  by_cases hguard : containsStr (keys k')
      (paraText (pre ++ [p ++ F] ++ M ++ [G ++ q] ++ post)) = true
  · rw [fillParaStep, if_pos hguard, fillRunsEq]
    rw [List.map_append, List.map_append, List.map_append, List.map_append]
    have hMno := splitMnoKey k hk F G M hF hsplit k'
    have hMid : M.map (runSub (keys k') v) = M := by
      have hmm : ∀ m ∈ M, runSub (keys k') v m = m := by
        intro m hm
        rw [runSub]
        simp [hMno m hm]
      rw [List.map_congr_left hmm, List.map_id']
    have hFrun : ∃ p'', runSub (keys k') v (p ++ F) = p'' ++ F := by
      rw [runSub]
      by_cases hc : containsStr (keys k') (p ++ F) = true
      · rw [if_pos hc]
        have hpair := splitFpair k hk F G M hG hsplit
        have hhead : F.head? ≠ some rb := by
          rw [splitFhead k F G M hF hsplit]
          intro hcon
          rw [Option.some.injEq] at hcon
          exact absurd hcon (by decide)
        have h := replaceKeepTail rb (lb :: lb :: midOf k') v F p hpair hhead
        rw [← keysAsPair k'] at h
        exact h
      · rw [if_neg hc]
        exact ⟨p, rfl⟩
    have hGrun : ∃ q'', runSub (keys k') v (G ++ q) = G ++ q'' := by
      rw [runSub]
      by_cases hc : containsStr (keys k') (G ++ q) = true
      · rw [if_pos hc]
        have hpair := splitGpair k hk F G M hF hsplit
        have hlast : G.getLast? ≠ some lb := by
          rw [splitGlast k hk F G M hG hsplit]
          intro hcon
          rw [Option.some.injEq] at hcon
          exact absurd hcon (by decide)
        have hcons : keys k' = lb :: (lb :: (midOf k' ++ [rb, rb])) := rfl
        rw [hcons]
        exact ⟨pyReplace (lb :: (lb :: (midOf k' ++ [rb, rb]))) v q,
          replaceSkipSeg lb (midOf k' ++ [rb, rb]) v G q hpair hlast⟩
      · rw [if_neg hc]
        exact ⟨q, rfl⟩
    rcases hFrun with ⟨p'', hp''⟩
    rcases hGrun with ⟨q'', hq''⟩
    refine ⟨pre.map (runSub (keys k') v), p'', q'', post.map (runSub (keys k') v), ?_⟩
    rw [hMid]
    simp only [List.map_cons, List.map_nil]
    rw [hp'', hq'']
  · rw [fillParaStep, if_neg hguard]
    exact ⟨pre, p, q, post, rfl⟩

/-- The whole replacement loop keeps the three fragments of a split token
intact and in place. -/
theorem fillParagraphSplitKeep (k : Nat) (hk : k < 18) (F G : Str) (M : List Str)
    (hF : F ≠ []) (hG : G ≠ []) (hsplit : F ++ cat M ++ G = keys k) :
    ∀ (reps : List (Str × Str)), (∀ kv ∈ reps, ∃ k', kv.1 = keys k') →
      ∀ (pre post : List Str) (p q : Str),
        ∃ pre' p' q' post',
          fillParagraph reps (pre ++ [p ++ F] ++ M ++ [G ++ q] ++ post) =
            pre' ++ [p' ++ F] ++ M ++ [G ++ q'] ++ post' := by
  intro reps
  induction reps with
  | nil =>
    intro _ pre post p q
    exact ⟨pre, p, q, post, rfl⟩
  | cons kv reps' ih =>
    intro hreps pre post p q
    rcases hreps kv (by simp) with ⟨k', hk'⟩
    have hstep : fillParagraph (kv :: reps') (pre ++ [p ++ F] ++ M ++ [G ++ q] ++ post) =
        fillParagraph reps' (fillParaStep (pre ++ [p ++ F] ++ M ++ [G ++ q] ++ post) kv) := rfl
    rw [hstep]
    have hkv : kv = (keys k', kv.2) := by
      cases kv
      simp at hk' ⊢
      exact hk'
    rw [hkv]
    rcases fillParaStepSplitKeep k hk F G M hF hG hsplit k' kv.2 pre post p q with
      ⟨pre1, p1, q1, post1, heq⟩
    rw [heq]
    exact ih (fun kv2 hm => hreps kv2 (by simp [hm])) pre1 post1 p1 q1


/-!
Untouched content, table ordering, and optional fields.
-/

/-- Pointwise-identical map is the identity. -/
theorem mapSelf {α : Type} (f : α → α) (l : List α) (h : ∀ x ∈ l, f x = x) :
    l.map f = l := by
  rw [List.map_congr_left h, List.map_id']

/-- A paragraph whose text holds no token is untouched by the whole loop. -/
theorem fillParagraphUntouchedAux (runs : Paragraph)
    (h : ∀ k, k < 18 → containsStr (keys k) (paraText runs) = false) :
    ∀ (ks : List Nat) (vs : Nat → Str), (∀ k ∈ ks, k < 18) →
      fillParagraph (ks.map (fun k => (keys k, vs k))) runs = runs := by
  intro ks
  induction ks with
  | nil => intro vs _; rfl
  | cons k ks' ih =>
    intro vs hks
    have hstep : fillParagraph ((k :: ks').map (fun k => (keys k, vs k))) runs =
        fillParagraph (ks'.map (fun k => (keys k, vs k)))
          (fillParaStep runs (keys k, vs k)) := rfl
    rw [hstep, fillParaStep, if_neg (by rw [h k (hks k (by simp))]; simp)]
    exact ih vs (fun j hj => hks j (by simp [hj]))

/-- A paragraph whose text holds no token is untouched by generate_docx's
replacement loop. -/
theorem fillParagraphUntouched (data : Lawsuit) (runs : Paragraph)
    (h : ∀ k, k < 18 → containsStr (keys k) (paraText runs) = false) :
    fillParagraph (replacements data) runs = runs := by
  rw [replacements_eq_range]
  exact fillParagraphUntouchedAux runs h (List.range 18) (vals data)
    (fun k hk => List.mem_range.1 hk)

/-- A body paragraph is among the document's paragraphs. -/
theorem blockMemPara (body : List Block) (p : Paragraph) (hp : Block.para p ∈ body) :
    p ∈ docParagraphs ⟨body⟩ :=
  List.mem_filterMap.2 ⟨Block.para p, hp, rfl⟩

/-- A body table is among the document's tables. -/
theorem blockMemTable (body : List Block) (t : Table) (ht : Block.table t ∈ body) :
    t ∈ docTables ⟨body⟩ :=
  List.mem_filterMap.2 ⟨Block.table t, ht, rfl⟩

/-- A document none of whose rewritten paragraphs holds a token is returned
unchanged by generate_docx's traversal. -/
theorem fillDocumentUntouched (data : Lawsuit) (d : Document)
    (h : ∀ p ∈ allFilledParas d, ∀ k, k < 18 →
      containsStr (keys k) (paraText p) = false) :
    fillDocument data d = d := by
  cases d with
  | mk body =>
    rw [fillDocument]
    congr 1
    apply mapSelf
    intro b hb
    cases b with
    | para p =>
      have hp : p ∈ allFilledParas ⟨body⟩ :=
        paraMemAll ⟨body⟩ p (blockMemPara body p hb)
      show Block.para (fillParagraph (replacements data) p) = Block.para p
      rw [fillParagraphUntouched data p (h p hp)]
    | table t =>
      show Block.table (fillTable (replacements data) t) = Block.table t
      have htmem : t ∈ docTables ⟨body⟩ := blockMemTable body t hb
      cases t with
      | mk rows =>
        show Block.table (Table.mk (rows.map
          (fun row => row.map (fillCell (replacements data))))) =
          Block.table (Table.mk rows)
        have hrows : rows.map (fun row => row.map (fillCell (replacements data))) = rows := by
          apply mapSelf
          intro row hrow
          apply mapSelf
          intro c hc
          cases c with
          | mk ps ts =>
            show Cell.mk (ps.map (fillParagraph (replacements data))) ts = Cell.mk ps ts
            have hps : ps.map (fillParagraph (replacements data)) = ps := by
              apply mapSelf
              intro p hp
              apply fillParagraphUntouched data p
              apply h p
              exact cellParaMemAll ⟨body⟩ (Table.mk rows) row (Cell.mk ps ts) p htmem
                hrow hc hp
            rw [hps]
        rw [hrows]

/-- The same document with all tables moved after all paragraphs. -/
def tablesLast (d : Document) : Document :=
  ⟨d.body.filter (fun b => match b with | .para _ => true | .table _ => false) ++
    d.body.filter (fun b => match b with | .para _ => false | .table _ => true)⟩

/-- Filtering away only blocks the projection ignores keeps the projection. -/
theorem filterMapFilter {α : Type} (f : Block → Option α) (pr : Block → Bool)
    (h : ∀ b, pr b = false → f b = none) :
    ∀ body : List Block, (body.filter pr).filterMap f = body.filterMap f := by
  intro body
  induction body with
  | nil => rfl
  | cons b bs ih =>
    by_cases hb : pr b = true
    · rw [List.filter_cons_of_pos hb]
      cases hfb : f b with
      | none => rw [List.filterMap_cons_none hfb, List.filterMap_cons_none hfb, ih]
      | some a => rw [List.filterMap_cons_some hfb, List.filterMap_cons_some hfb, ih]
    · rw [List.filter_cons_of_neg (by simpa using hb)]
      rw [List.filterMap_cons_none (h b (by simpa using hb)), ih]

/-- Keeping only blocks the projection ignores yields nothing. -/
theorem filterMapFilterNone {α : Type} (f : Block → Option α) (pr : Block → Bool)
    (h : ∀ b, pr b = true → f b = none) :
    ∀ body : List Block, (body.filter pr).filterMap f = [] := by
  intro body
  induction body with
  | nil => rfl
  | cons b bs ih =>
    by_cases hb : pr b = true
    · rw [List.filter_cons_of_pos hb, List.filterMap_cons_none (h b hb), ih]
    · rw [List.filter_cons_of_neg (by simpa using hb), ih]

/-- Paragraphs of the reordered document. -/
theorem docParagraphsTablesLast (d : Document) :
    docParagraphs (tablesLast d) = docParagraphs d := by
  show (d.body.filter _ ++ d.body.filter _).filterMap _ = d.body.filterMap _
  rw [List.filterMap_append]
  rw [filterMapFilter _ _ (fun b => by cases b <;> simp) d.body]
  rw [filterMapFilterNone _ _ (fun b => by cases b <;> simp) d.body]
  rw [List.append_nil]

/-- Tables of the reordered document. -/
theorem docTablesTablesLast (d : Document) :
    docTables (tablesLast d) = docTables d := by
  show (d.body.filter _ ++ d.body.filter _).filterMap _ = d.body.filterMap _
  rw [List.filterMap_append]
  rw [filterMapFilterNone _ _ (fun b => by cases b <;> simp) d.body]
  rw [filterMapFilter _ _ (fun b => by cases b <;> simp) d.body]
  rw [List.nil_append]

/-- Extraction only sees paragraphs-then-tables, so reordering is invisible. -/
theorem extractTablesLast (d : Document) :
    extractContent (tablesLast d) = extractContent d := by
  rw [extractContent, extractContent, extractParts, extractParts,
    docParagraphsTablesLast, docTablesTablesLast]

/-- An occurrence in a filled body paragraph, with non-whitespace endpoints,
reaches the extracted text of the filled document. -/
theorem extractFillContainsOfPara (data : Lawsuit) (d : Document) (p : Paragraph)
    (hp : p ∈ docParagraphs d) (pat : Str) (ch cl : Char)
    (hch : pat.head? = some ch) (hchw : ch.isWhitespace = false)
    (hcl : pat.getLast? = some cl) (hclw : cl.isWhitespace = false) (hne : pat ≠ [])
    (h : containsStr pat (paraText (fillParagraph (replacements data) p)) = true) :
    containsStr pat (extractContent (fillDocument data d)) = true := by
  rw [extractContent]
  have hkeep := stripKeeps pat ch cl hch hchw hcl hclw _ h
  apply joinNLContainsOfMem _ _ _ _ hkeep
  apply extractPartsFillMemPara data d p hp
  have hne2 := containsNe _ _ hkeep hne
  cases hstrip : pyStrip (paraText (fillParagraph (replacements data) p)) with
  | nil => exact absurd hstrip hne2
  | cons a l => rfl

/-- The optional leaf fields of the record, by replacement-map index. -/
def optField (data : Lawsuit) : Nat → Option (Option Str)
  | 0 => some data.plaintiff.name
  | 1 => some data.plaintiff.gender
  | 2 => some data.plaintiff.ethnicity
  | 3 => some data.plaintiff.dob
  | 4 => some data.plaintiff.address
  | 5 => some data.plaintiff.id_card
  | 6 => some data.plaintiff.contact
  | 7 => some data.defendant.name
  | 8 => some data.defendant.gender
  | 9 => some data.defendant.ethnicity
  | 10 => some data.defendant.dob
  | 11 => some data.defendant.address
  | 12 => some data.defendant.id_card
  | 13 => some data.defendant.contact
  | 14 => none
  | 15 => none
  | 16 => some data.court_name
  | 17 => some data.date
  | _ + 18 => none

/-- An absent optional field maps to the empty replacement value. -/
theorem valsAbsent (data : Lawsuit) : ∀ (k : Nat),
    optField data k = some none → vals data k = []
  | 0, h => by simp [optField] at h; simp [vals, h, orEmpty]
  | 1, h => by simp [optField] at h; simp [vals, h, orEmpty]
  | 2, h => by simp [optField] at h; simp [vals, h, orEmpty]
  | 3, h => by simp [optField] at h; simp [vals, h, orEmpty]
  | 4, h => by simp [optField] at h; simp [vals, h, orEmpty]
  | 5, h => by simp [optField] at h; simp [vals, h, orEmpty]
  | 6, h => by simp [optField] at h; simp [vals, h, orEmpty]
  | 7, h => by simp [optField] at h; simp [vals, h, orEmpty]
  | 8, h => by simp [optField] at h; simp [vals, h, orEmpty]
  | 9, h => by simp [optField] at h; simp [vals, h, orEmpty]
  | 10, h => by simp [optField] at h; simp [vals, h, orEmpty]
  | 11, h => by simp [optField] at h; simp [vals, h, orEmpty]
  | 12, h => by simp [optField] at h; simp [vals, h, orEmpty]
  | 13, h => by simp [optField] at h; simp [vals, h, orEmpty]
  | 14, h => by simp [optField] at h
  | 15, h => by simp [optField] at h
  | 16, h => by simp [optField] at h; simp [vals, h, orEmpty]
  | 17, h => by simp [optField] at h; simp [vals, h, orEmpty]
  | (_ + 18), h => by simp [optField] at h


/-!
Concrete fixtures used by witnesses and counterexamples.
-/

/-- A litigant record with every field absent. -/
def noParty : PartyInfo := ⟨none, none, none, none, none, none, none⟩

/-- Record whose plaintiff name is itself the literal claims token. -/
def L10 : Lawsuit :=
  ⟨⟨some (keyOf (str "claims")), none, none, none, none, none, none⟩,
    noParty, str "CLAIMVALUE", str "facts", none, none⟩

/-- One-paragraph template holding only the plaintiff-name token. -/
def D10 : Document := ⟨[Block.para [keys 0]]⟩

/-!
Claim theorems.
-/

/-- Claim C2: text extraction returns the trimmed non-empty paragraph texts
in document order followed by the trimmed non-empty table-cell texts in
table/row/cell order, joined by newline; table content always trails
paragraph content regardless of the blocks' original interleaving, and the
paragraphs A, B followed by a one-cell table C extract to "A\nB\nC". -/
theorem claim2_extraction_order :
    (∀ d : Document, extractContent d = extractContent (tablesLast d)) ∧
    extractContent ⟨[Block.para [str "A"], Block.para [str "B"],
      Block.table (Table.mk [[Cell.mk [[str "C"]] []]])]⟩ = str "A\nB\nC" ∧
    extractContent ⟨[Block.table (Table.mk [[Cell.mk [[str "C"]] []]]),
      Block.para [str "A"], Block.para [str "B"]]⟩ = str "A\nB\nC" := by
  refine ⟨fun d => (extractTablesLast d).symm, by decide, by decide⟩

/-- Claim C9: a paragraph whose text contains none of the 18 placeholder
tokens is byte-for-byte unchanged by generate_docx's replacement loop, both
as a bare paragraph and as a body block. -/
theorem claim9_untouched_text (data : Lawsuit) (runs : Paragraph)
    (h : ∀ k, k < 18 → containsStr (keys k) (paraText runs) = false) :
    fillParagraph (replacements data) runs = runs ∧
    fillBlock (replacements data) (Block.para runs) = Block.para runs := by
  refine ⟨fillParagraphUntouched data runs h, ?_⟩
  show Block.para (fillParagraph (replacements data) runs) = Block.para runs
  rw [fillParagraphUntouched data runs h]

/-- Witness for claim C9 at a concrete paragraph without tokens. -/
theorem claim9_untouched_text_witness :
    fillParagraph (replacements L10) [str "hello", str "world"] =
        [str "hello", str "world"] ∧
    fillBlock (replacements L10) (Block.para [str "hello", str "world"]) =
      Block.para [str "hello", str "world"] :=
  claim9_untouched_text L10 [str "hello", str "world"] (by decide)

/-- Claim C10: substitution is sequential in map order, not simultaneous:
with the plaintiff name set to the literal claims token, filling a template
holding only the plaintiff-name token first injects the claims token and
then replaces it with the claims value, so the name's literal value does not
survive into the output. -/
theorem claim10_sequential_substitution :
    extractContent (fillDocument L10 D10) = str "CLAIMVALUE" ∧
    containsStr (keyOf (str "claims")) (extractContent (fillDocument L10 D10)) = false := by
  constructor
  · decide
  · decide

/-- Claim C7: extraction fails, returning no record and surfacing the
unsupported-format message, exactly on inputs that are not .docx documents:
a non-.docx path is rejected up front, an unparsable document surfaces the
parse failure, and otherwise a record is returned when the model parse
succeeds. -/
theorem claim7_unsupported_format (filePath : Str) (parseDoc : Except Str Document)
    (llm : Str → Except Str Lawsuit) :
    (endsWithStr (str ".docx") (lowerStr filePath) = false →
      extract_lawsuit_data filePath parseDoc llm =
        ⟨none, some (str "信息提取失败: " ++ docxOnlyMsg)⟩) ∧
    (∀ e, endsWithStr (str ".docx") (lowerStr filePath) = true →
      parseDoc = Except.error e →
      extract_lawsuit_data filePath parseDoc llm =
        ⟨none, some (str "信息提取失败: " ++ e)⟩) ∧
    (∀ d law, endsWithStr (str ".docx") (lowerStr filePath) = true →
      parseDoc = Except.ok d → llm (extractContent d) = Except.ok law →
      extract_lawsuit_data filePath parseDoc llm = ⟨some law, none⟩) := by
  refine ⟨?_, ?_, ?_⟩
  · intro hbad
    rw [extract_lawsuit_data.eq_def, if_neg (by rw [hbad]; simp)]
  · intro e hgood hparse
    rw [extract_lawsuit_data.eq_def, if_pos hgood, hparse]
  · intro d law hgood hparse hllm
    rw [extract_lawsuit_data.eq_def, if_pos hgood, hparse]
    show (match llm (extractContent d) with
      | .error e => (⟨none, some (str "信息提取失败: " ++ e)⟩ : Outcome Lawsuit)
      | .ok law => ⟨some law, none⟩) = ⟨some law, none⟩
    rw [hllm]

/-- Witness for claim C7 at concrete inputs for all three branches. -/
theorem claim7_unsupported_format_witness :
    extract_lawsuit_data (str "a.doc") (Except.ok ⟨[]⟩)
        (fun _ => Except.error (str "e")) =
      ⟨none, some (str "信息提取失败: " ++ docxOnlyMsg)⟩ ∧
    extract_lawsuit_data (str "a.docx") (Except.error (str "bad zip"))
        (fun _ => Except.error (str "e")) =
      ⟨none, some (str "信息提取失败: " ++ str "bad zip")⟩ ∧
    extract_lawsuit_data (str "a.docx") (Except.ok ⟨[]⟩) (fun _ => Except.ok L10) =
      ⟨some L10, none⟩ :=
  ⟨(claim7_unsupported_format (str "a.doc") (Except.ok ⟨[]⟩) _).1 (by decide),
    (claim7_unsupported_format (str "a.docx") (Except.error (str "bad zip")) _).2.1
      (str "bad zip") (by decide) rfl,
    (claim7_unsupported_format (str "a.docx") (Except.ok ⟨[]⟩) _).2.2 ⟨[]⟩ L10
      (by decide) rfl rfl⟩

/-- Claim C8: a model response the schema parser rejects makes the extraction
return no record at all and surface a structured error message; the guarded
call cannot propagate the failure as a crash. -/
theorem claim8_malformed_response (filePath : Str) (d : Document)
    (llm : Str → Except Str Lawsuit) (msg : Str)
    (hname : endsWithStr (str ".docx") (lowerStr filePath) = true)
    (hllm : llm (extractContent d) = Except.error msg) :
    extract_lawsuit_data filePath (Except.ok d) llm =
      ⟨none, some (str "信息提取失败: " ++ msg)⟩ := by
  rw [extract_lawsuit_data.eq_def, if_pos hname]
  show (match llm (extractContent d) with
    | .error e => (⟨none, some (str "信息提取失败: " ++ e)⟩ : Outcome Lawsuit)
    | .ok law => ⟨some law, none⟩) = _
  rw [hllm]

/-- Witness for claim C8 at a concrete malformed response. -/
theorem claim8_malformed_response_witness :
    extract_lawsuit_data (str "a.docx") (Except.ok ⟨[]⟩)
        (fun _ => Except.error (str "claims missing")) =
      ⟨none, some (str "信息提取失败: " ++ str "claims missing")⟩ :=
  claim8_malformed_response (str "a.docx") ⟨[]⟩ _ (str "claims missing")
    (by decide) rfl


/-- Claim C6: generate_docx fails exactly when the template cannot be parsed,
never because of the record's content: a parsed template always yields a
serialized result, and a template holding no tokens anywhere is returned
unchanged (absent tokens are silently never substituted). -/
theorem claim6_totality (data : Lawsuit) (t : Except Str Document) :
    ((generate_docx data t).result = none ↔ ∃ e, t = Except.error e) ∧
    (∀ d, t = Except.ok d →
      (generate_docx data t).result = some (fillDocument data d)) ∧
    (∀ d, t = Except.ok d →
      (∀ p ∈ allFilledParas d, ∀ k, k < 18 →
        containsStr (keys k) (paraText p) = false) →
      (generate_docx data t).result = some d) := by
  cases t with
  | error e =>
    refine ⟨⟨fun _ => ⟨e, rfl⟩, fun _ => rfl⟩, ?_, ?_⟩
    · intro d hd
      cases hd
    · intro d hd
      cases hd
  | ok d0 =>
    refine ⟨⟨fun h => ?_, ?_⟩, ?_, ?_⟩
    · exact Option.noConfusion h
    · rintro ⟨e, he⟩
      cases he
    · intro d hd
      rw [Except.ok.injEq] at hd
      subst hd
      rfl
    · intro d hd hno
      rw [Except.ok.injEq] at hd
      subst hd
      exact congrArg some (fillDocumentUntouched data _ hno)

/-- Witness for claim C6 at a concrete record and templates. -/
theorem claim6_totality_witness :
    ((generate_docx L10 (Except.error (str "broken"))).result = none ↔
      ∃ e, (Except.error (str "broken") : Except Str Document) = Except.error e) ∧
    (generate_docx L10 (Except.ok ⟨[Block.para [str "plain"]]⟩)).result =
      some ⟨[Block.para [str "plain"]]⟩ :=
  ⟨(claim6_totality L10 (Except.error (str "broken"))).1,
    (claim6_totality L10 (Except.ok ⟨[Block.para [str "plain"]]⟩)).2.2
      ⟨[Block.para [str "plain"]]⟩ rfl (by decide)⟩

/-- Concatenation of a single string. -/
theorem catSingle (x : Str) : cat [x] = x := by simp [cat]

/-- Folding append with a seed appends the concatenation to the seed. -/
theorem catInit (l : List Str) (x : Str) :
    List.foldr (fun a b => a ++ b) x l = cat l ++ x := by
  induction l with
  | nil => simp [cat]
  | cons a t ih =>
    show a ++ List.foldr (fun a b => a ++ b) x t = cat (a :: t) ++ x
    have hcons : cat (a :: t) = a ++ cat t := rfl
    rw [ih, hcons, List.append_assoc]

/-- Claim C3: a placeholder token split across two or more runs of a
paragraph is never substituted: generate_docx still succeeds on the parsed
template, every replacement step leaves the token's run fragments intact and
adjacent, and the extracted text of the output still contains the literal
token. -/
theorem claim3_split_run (data : Lawsuit) (k : Nat) (hk : k < 18)
    (F G : Str) (M : List Str) (hF : F ≠ []) (hG : G ≠ [])
    (hsplit : F ++ cat M ++ G = keys k)
    (bpre bpost : List Block) (pre post : List Str) (p q : Str) :
    (generate_docx data (Except.ok
        ⟨bpre ++ [Block.para (pre ++ [p ++ F] ++ M ++ [G ++ q] ++ post)] ++ bpost⟩)).result =
      some (fillDocument data
        ⟨bpre ++ [Block.para (pre ++ [p ++ F] ++ M ++ [G ++ q] ++ post)] ++ bpost⟩) ∧
    (generate_docx data (Except.ok
        ⟨bpre ++ [Block.para (pre ++ [p ++ F] ++ M ++ [G ++ q] ++ post)] ++ bpost⟩)).errorMsg =
      none ∧
    containsStr (keys k) (extractContent (fillDocument data
      ⟨bpre ++ [Block.para (pre ++ [p ++ F] ++ M ++ [G ++ q] ++ post)] ++ bpost⟩)) = true := by
  refine ⟨rfl, rfl, ?_⟩
  have hreps : ∀ kv ∈ replacements data, ∃ k', kv.1 = keys k' := by
    rw [replacements_eq_range]
    intro kv hkv
    rcases List.mem_map.1 hkv with ⟨k', _, rfl⟩
    exact ⟨k', rfl⟩
  rcases fillParagraphSplitKeep k hk F G M hF hG hsplit (replacements data) hreps
    pre post p q with ⟨pre', p', q', post', heq⟩
  apply extractFillContainsOfPara data _ (pre ++ [p ++ F] ++ M ++ [G ++ q] ++ post)
    (blockMemPara _ _ (by simp)) (keys k) lb rb (keysHead k) (by decide)
    (keysLast k hk) (by decide) (keysNe k)
  rw [heq, paraText]
  apply (containsIff _ _).2
  refine ⟨cat pre' ++ p', q' ++ cat post', ?_⟩
  rw [← hsplit]
  simp only [catAppend, catSingle, List.append_assoc]

/-- The two pieces of the plaintiff-name token split across two runs. -/
def F3 : Str := lb :: lb :: str "plain"

/-- The closing piece of the split token. -/
def G3 : Str := str "tiff_name" ++ [rb, rb]

/-- Witness for claim C3 at a concrete two-run split of the plaintiff-name
token. -/
theorem claim3_split_run_witness :
    (generate_docx L10 (Except.ok
        ⟨[] ++ [Block.para ([] ++ [[] ++ F3] ++ [] ++ [G3 ++ []] ++ [])] ++ []⟩)).result =
      some (fillDocument L10
        ⟨[] ++ [Block.para ([] ++ [[] ++ F3] ++ [] ++ [G3 ++ []] ++ [])] ++ []⟩) ∧
    (generate_docx L10 (Except.ok
        ⟨[] ++ [Block.para ([] ++ [[] ++ F3] ++ [] ++ [G3 ++ []] ++ [])] ++ []⟩)).errorMsg =
      none ∧
    containsStr (keys 0) (extractContent (fillDocument L10
      ⟨[] ++ [Block.para ([] ++ [[] ++ F3] ++ [] ++ [G3 ++ []] ++ [])] ++ []⟩)) = true :=
  claim3_split_run L10 0 (by decide) F3 G3 [] (by decide) (by decide) (by decide)
    [] [] [] [] [] []


/-- Record whose plaintiff-name value smuggles in the date token. -/
def L1c : Lawsuit :=
  ⟨⟨some (keyOf (str "date") ++ str "A"), some (str "b"), some (str "c"),
      some (str "d"), some (str "e"), some (str "f"), some (str "g")⟩,
    ⟨some (str "h"), some (str "i"), some (str "j"), some (str "k2"),
      some (str "l"), some (str "m"), some (str "n")⟩,
    str "o", str "p2", some (str "q"), some (str "r")⟩

/-- Template with each of the 18 tokens wholly inside its own single run. -/
def D1c : Document := ⟨(List.range 18).map (fun k => Block.para [keys k])⟩

/-- Counterexample to claim C1 as stated: the template carries all 18 tokens
wholly in single runs, the record's 18 values are distinct and non-empty,
yet the extracted output lacks the plaintiff-name value, because that value
itself contains the date token and the later date pass rewrites it. -/
theorem claim1_counterexample :
    (∀ k, k < 18 → ∃ p ∈ docParagraphs D1c, ∃ r ∈ p, containsStr (keys k) r = true) ∧
    (∀ k, k < 18 → vals L1c k ≠ []) ∧
    (∀ k, k < 18 → ∀ j, j < 18 → k ≠ j → vals L1c k ≠ vals L1c j) ∧
    containsStr (vals L1c 0) (extractContent (fillDocument L1c D1c)) = false := by
  refine ⟨by decide, by decide, by decide, by decide⟩

/-- Claim C1 (amended): for a template whose rewritten paragraphs are
well-formed (every brace inside a whole token), whose 18 tokens each appear
wholly inside a single run of some rewritten paragraph, and a record with
distinct, non-empty, brace-free values with non-whitespace end characters,
the filled document's extracted text contains every value and none of the
18 literal tokens. -/
theorem claim1_roundtrip (data : Lawsuit) (d : Document)
    (hwf : ∀ p ∈ allFilledParas d, wfPara p)
    (htame : ∀ k, k < 18 → tameVal (vals data k) = true)
    (hdist : ∀ k, k < 18 → ∀ j, j < 18 → k ≠ j → vals data k ≠ vals data j)
    (hpres : ∀ k, k < 18 → ∃ segss, List.map render segss ∈ allFilledParas d ∧
      wfRunsB segss = true ∧ ∃ segs ∈ segss, Seg.tok k ∈ segs) :
    (∀ k, k < 18 →
      containsStr (vals data k) (extractContent (fillDocument data d)) = true) ∧
    (∀ k, k < 18 →
      containsStr (keys k) (extractContent (fillDocument data d)) = false) := by
  have hvalsbf : ∀ j, j < 18 → braceFreeB (vals data j) = true :=
    fun j hj => (tameParts _ (htame j hj)).1
  constructor
  · intro k hk
    rcases hpres k hk with ⟨segss, hmem, hwfs, segs, hsegs, htok⟩
    exact extractFillValue data d k hk hvalsbf (htame k hk) segss hwfs hmem segs hsegs htok
  · intro k hk
    exact braceFreeNoKey k _ (extractFillBraceFree data d hwf hvalsbf)

/-- One run carrying all 18 tokens, as segments. -/
def segsAll : List Seg := (List.range 18).map Seg.tok

/-- Record with 18 distinct tame values. -/
def L1w : Lawsuit :=
  ⟨⟨some (str "pn"), some (str "pg"), some (str "pe"), some (str "pd"),
      some (str "pa"), some (str "pi"), some (str "pc")⟩,
    ⟨some (str "dn"), some (str "dg"), some (str "de"), some (str "dd"),
      some (str "da"), some (str "di"), some (str "dc")⟩,
    str "cl", str "fr", some (str "cn"), some (str "dt")⟩

/-- One-paragraph template rendered from the all-token segment run. -/
def D1w : Document := ⟨[Block.para (List.map render [segsAll])]⟩

/-- Every rewritten paragraph of the witness template is well-formed. -/
theorem wfD1w : ∀ p ∈ allFilledParas D1w, wfPara p := by
  intro p hp
  have hall : allFilledParas D1w = [List.map render [segsAll]] := rfl
  rw [hall, List.mem_singleton] at hp
  rw [hp]
  exact ⟨[segsAll], rfl, by decide⟩

/-- Every token appears in the witness template's single run. -/
theorem presD1w : ∀ k, k < 18 → ∃ segss, List.map render segss ∈ allFilledParas D1w ∧
    wfRunsB segss = true ∧ ∃ segs ∈ segss, Seg.tok k ∈ segs := by
  intro k hk
  refine ⟨[segsAll], ?_, by decide, segsAll, by simp, ?_⟩
  · have hall : allFilledParas D1w = [List.map render [segsAll]] := rfl
    rw [hall]
    exact List.mem_singleton.2 rfl
  · have hmem : ∀ k, k < 18 → Seg.tok k ∈ segsAll := by decide
    exact hmem k hk

/-- Witness for the amended claim C1 at a concrete template and record. -/
theorem claim1_roundtrip_witness :
    (∀ k, k < 18 →
      containsStr (vals L1w k) (extractContent (fillDocument L1w D1w)) = true) ∧
    (∀ k, k < 18 →
      containsStr (keys k) (extractContent (fillDocument L1w D1w)) = false) :=
  claim1_roundtrip L1w D1w wfD1w (by decide) (by decide) presD1w

/-- Record with the court name absent and the date value smuggling in the
court-name token. -/
def L4c : Lawsuit :=
  ⟨noParty, noParty, str "c1", str "f1", none, some (keyOf (str "court_name"))⟩

/-- Template holding the court-name and date tokens in single runs. -/
def D4c : Document := ⟨[Block.para [keys 16], Block.para [keys 17]]⟩

/-- Counterexample to claim C4 as stated: the court name is absent and its
token maps to the empty string, the fill does not fail, yet the literal
court-name token stands in the output text, injected by the later date
pass from the date value. -/
theorem claim4_counterexample :
    L4c.court_name = none ∧
    (replacements L4c).get? 16 = some (keys 16, []) ∧
    (generate_docx L4c (Except.ok D4c)).errorMsg = none ∧
    containsStr (keys 16) (extractContent (fillDocument L4c D4c)) = true := by
  refine ⟨rfl, by decide, rfl, by decide⟩

/-- Claim C4 (amended): for a record whose values are brace-free and a
well-formed template, an absent optional field's token is mapped to the
empty string, the extracted output text does not contain that token, and
the fill succeeds. -/
theorem claim4_absent_empty (data : Lawsuit) (d : Document) (k : Nat) (hk : k < 18)
    (hwf : ∀ p ∈ allFilledParas d, wfPara p)
    (hvals : ∀ j, j < 18 → braceFreeB (vals data j) = true)
    (habsent : optField data k = some none) :
    (replacements data).get? k = some (keys k, []) ∧
    containsStr (keys k) (extractContent (fillDocument data d)) = false ∧
    (generate_docx data (Except.ok d)).result = some (fillDocument data d) ∧
    (generate_docx data (Except.ok d)).errorMsg = none := by
  refine ⟨?_, ?_, rfl, rfl⟩
  · rw [replacements_eq_range, List.get?_map, List.get?_range hk]
    rw [Option.map_some', valsAbsent data k habsent]
  · exact braceFreeNoKey k _ (extractFillBraceFree data d hwf hvals)

/-- The witness record with its court name removed. -/
def L4w : Lawsuit :=
  ⟨L1w.plaintiff, L1w.defendant, L1w.claims, L1w.facts_and_reasons, none, L1w.date⟩

/-- Witness for the amended claim C4 at a concrete template and record. -/
theorem claim4_absent_empty_witness :
    (replacements L4w).get? 16 = some (keys 16, []) ∧
    containsStr (keys 16) (extractContent (fillDocument L4w D1w)) = false ∧
    (generate_docx L4w (Except.ok D1w)).result = some (fillDocument L4w D1w) ∧
    (generate_docx L4w (Except.ok D1w)).errorMsg = none := by
  apply claim4_absent_empty L4w D1w 16 (by decide) ?_ (by decide) (by decide)
  intro p hp
  have hall : allFilledParas D1w = [List.map render [segsAll]] := rfl
  rw [hall, List.mem_singleton] at hp
  rw [hp]
  exact ⟨[segsAll], rfl, by decide⟩

/-- Record used against the nested-table traversal claim. -/
def L5c : Lawsuit := ⟨noParty, noParty, str "X", str "f2", none, none⟩

/-- Document whose only token sits in a paragraph of a table nested inside
a cell of a body-level table. -/
def D5c : Document :=
  ⟨[Block.table (Table.mk [[Cell.mk []
      [Table.mk [[Cell.mk [[keys 14]] []]]]]])]⟩

/-- Counterexample to claim C5 as stated: the nested paragraph's visible
text contains the claims token and its run holds the token, the claimed
in-place substitution would rewrite that run to the claims value, yet
generate_docx's traversal leaves the whole document unchanged because it
never descends into tables nested inside cells. -/
theorem claim5_counterexample :
    fillDocument L5c D5c = D5c ∧
    containsStr (keys 14) (paraText [keys 14]) = true ∧
    pyReplace (keys 14) (vals L5c 14) (keys 14) = str "X" ∧
    str "X" ≠ keys 14 := by
  refine ⟨rfl, by decide, by decide, by decide⟩

/-- Claim C5 (amended): generate_docx substitutes positionally in every
body-level paragraph and in every direct paragraph of every cell of every
body-level table, and passes tables nested inside cells through unchanged. -/
theorem claim5_traversal (data : Lawsuit) (d : Document) :
    (∀ i p, d.body.get? i = some (Block.para p) →
      (fillDocument data d).body.get? i =
        some (Block.para (fillParagraph (replacements data) p))) ∧
    (∀ i t, d.body.get? i = some (Block.table t) →
      (fillDocument data d).body.get? i =
        some (Block.table (fillTable (replacements data) t))) ∧
    (∀ t row c, t ∈ docTables d → row ∈ t.rows → c ∈ row →
      (fillCell (replacements data) c).paragraphs =
        c.paragraphs.map (fillParagraph (replacements data)) ∧
      (fillCell (replacements data) c).tables = c.tables) := by
  refine ⟨?_, ?_, ?_⟩
  · intro i p hp
    show (d.body.map (fillBlock (replacements data))).get? i = _
    rw [List.get?_map, hp]
    rfl
  · intro i t ht
    show (d.body.map (fillBlock (replacements data))).get? i = _
    rw [List.get?_map, ht]
    rfl
  · intro t row c _ _ _
    refine ⟨fillCellParas _ c, ?_⟩
    cases c
    rfl

/-- A document with a body paragraph and a table whose cell nests a table. -/
def D5w : Document :=
  ⟨[Block.para [keys 14],
    Block.table (Table.mk [[Cell.mk [[keys 15]] [Table.mk []]]])]⟩

/-- Witness for the amended claim C5 at a concrete document. -/
theorem claim5_traversal_witness :
    (fillDocument L5c D5w).body.get? 0 =
      some (Block.para (fillParagraph (replacements L5c) [keys 14])) ∧
    (fillCell (replacements L5c) (Cell.mk [[keys 15]] [Table.mk []])).paragraphs =
      [[keys 15]].map (fillParagraph (replacements L5c)) ∧
    (fillCell (replacements L5c) (Cell.mk [[keys 15]] [Table.mk []])).tables =
      (Cell.mk [[keys 15]] [Table.mk []]).tables :=
  ⟨(claim5_traversal L5c D5w).1 0 [keys 14] rfl,
    ((claim5_traversal L5c D5w).2.2 (Table.mk [[Cell.mk [[keys 15]] [Table.mk []]]])
      [Cell.mk [[keys 15]] [Table.mk []]] (Cell.mk [[keys 15]] [Table.mk []])
      (List.mem_singleton.2 rfl) (List.mem_singleton.2 rfl)
      (List.mem_singleton.2 rfl)).1,
    ((claim5_traversal L5c D5w).2.2 (Table.mk [[Cell.mk [[keys 15]] [Table.mk []]]])
      [Cell.mk [[keys 15]] [Table.mk []]] (Cell.mk [[keys 15]] [Table.mk []])
      (List.mem_singleton.2 rfl) (List.mem_singleton.2 rfl)
      (List.mem_singleton.2 rfl)).2⟩

